import Mathlib

set_option maxHeartbeats 1000000

/-!
Verification of the B-tree node described by the repository's specification.

The repository's only source file, src/include/btree/node.h, declares the class
BTreeNode (fields: keys, values, children, numKeys, isLeaf, maxDegree; methods:
constructor, destructor, insertNonFull, splitChild, traverse, search) but contains
no method bodies.  All operational behaviour below is therefore modelled from the
specification (sections 3, 4, 6, 7 of spec.md), which describes the classic
B-tree insertion algorithm with node splitting.

Modelling decisions, each recorded at the definition it concerns:
* the index-aligned parallel arrays keys[] / values[] of the header are modelled
  as a single list of (key, value) entries;
* the promoted median carries its value into the parent (required so that the
  traversal example in spec.md section 8 emits every inserted value);
* the duplicate-key policy, explicitly left open by the spec ("pick one and
  document it"), is overwrite-in-place.
-/

/-- Modelled from the spec: a node holds at most 2*degree - 1 keys. -/
def maxKeys (degree : Nat) : Nat := 2 * degree - 1

/-- Modelled from the spec: a node holds at most 2*degree children. -/
def maxChildren (degree : Nat) : Nat := 2 * degree

/-- Modelled from the spec (data model, section 3): the missing class body of
BTreeNode.  The header's parallel arrays keys[i] / values[i] are modelled as one
list of (key, value) entries; children and the isLeaf flag are as declared in
src/include/btree/node.h. -/
inductive BTreeNode : Type where
  | mk (entries : List (Int × String)) (children : List BTreeNode) (isLeaf : Bool)

namespace BTreeNode

def entries : BTreeNode → List (Int × String)
  | mk es _ _ => es

def children : BTreeNode → List BTreeNode
  | mk _ cs _ => cs

def isLeaf : BTreeNode → Bool
  | mk _ _ lf => lf

/-- The node's keys, in array order (the map of the entry list onto first
components models the keys[] array of the header). -/
def keys (n : BTreeNode) : List Int := n.entries.map Prod.fst

/-- The numKeys field of the header: the current number of keys. -/
def numKeys (n : BTreeNode) : Nat := n.entries.length

theorem entries_mk (es : List (Int × String)) (cs : List BTreeNode) (lf : Bool) :
    (mk es cs lf).entries = es := rfl

theorem children_mk (es : List (Int × String)) (cs : List BTreeNode) (lf : Bool) :
    (mk es cs lf).children = cs := rfl

theorem isLeaf_mk (es : List (Int × String)) (cs : List BTreeNode) (lf : Bool) :
    (mk es cs lf).isLeaf = lf := rfl

theorem sizeOf_mk (es : List (Int × String)) (cs : List BTreeNode) (lf : Bool) :
    sizeOf (mk es cs lf) = 1 + sizeOf es + sizeOf cs + sizeOf lf :=
  BTreeNode.mk.sizeOf_spec es cs lf

theorem eta (n : BTreeNode) : mk n.entries n.children n.isLeaf = n := by
  cases n
  rfl

theorem sizeOf_decompose (n : BTreeNode) :
    sizeOf n = 1 + sizeOf n.entries + sizeOf n.children + sizeOf n.isLeaf := by
  cases n with
  | mk es cs lf => rw [entries_mk, children_mk, isLeaf_mk, sizeOf_mk]

end BTreeNode

theorem sizeOf_take_le {α : Type} [SizeOf α] :
    ∀ (n : Nat) (l : List α), sizeOf (l.take n) ≤ sizeOf l := by
  intro n l
  induction l generalizing n with
  | nil => cases n <;> simp
  | cons a as ih =>
    cases n with
    | zero => simp; omega
    | succ m =>
      simp only [List.take_succ_cons, List.cons.sizeOf_spec]
      have := ih m
      omega

theorem sizeOf_drop_le {α : Type} [SizeOf α] :
    ∀ (n : Nat) (l : List α), sizeOf (l.drop n) ≤ sizeOf l := by
  intro n l
  induction l generalizing n with
  | nil => cases n <;> simp
  | cons a as ih =>
    cases n with
    | zero => simp
    | succ m =>
      simp only [List.drop_succ_cons, List.cons.sizeOf_spec]
      have := ih m
      omega

namespace BTreeNode

/-- Modelled from the spec (section 4.1, search): the index of the first key
that is greater than or equal to the target, i.e. the number of keys strictly
below the target.  Used both as the search routing index and as the sorted
insertion position. -/
def slot (es : List (Int × String)) (k : Int) : Nat :=
  (es.takeWhile (fun e => e.1 < k)).length

/-- Modelled from the spec: BTreeNode::search is declared in the header
(line 25) with no body.  Per section 4.1: scan for the first key >= target;
on an exact match at index i return (this node, i); on a leaf miss return
not-found; otherwise recurse into children[i]. -/
def search : BTreeNode → Int → Option (BTreeNode × Nat)
  | mk es cs lf, k =>
    if (es[slot es k]?).map Prod.fst = some k then
      some (mk es cs lf, slot es k)
    else if lf then
      none
    else if h : slot es k < cs.length then
      search cs[slot es k] k
    else
      none
  termination_by n _ => sizeOf n
  decreasing_by
    have := List.sizeOf_lt_of_mem (cs.getElem_mem h)
    simp only [BTreeNode.sizeOf_mk]
    omega

/-- The declared C++ interface of search (header line 25) returns only a
nullable node pointer: BTreeNode* search(int key).  The Option models the
nullable pointer; by its type this interface conveys no index and no value. -/
def searchPtr (n : BTreeNode) (k : Int) : Option BTreeNode :=
  (n.search k).map Prod.fst

mutual

/-- Modelled from the spec (section 4.1, traverse): for a leaf, emit the
entries in order; for an internal node, interleave the child traversals with
this node's entries: children[0], e0, children[1], e1, ... -/
def traverse : BTreeNode → List (Int × String)
  | mk es cs lf => if lf then es else traverseSeq cs es
  termination_by n => sizeOf n
  decreasing_by
    simp only [BTreeNode.sizeOf_mk]
    omega

/-- The interleaving of a child list with an entry list used by traverse on
internal nodes. -/
def traverseSeq : List BTreeNode → List (Int × String) → List (Int × String)
  | [], _ => []
  | c :: _, [] => traverse c
  | c :: cs, e :: es => traverse c ++ e :: traverseSeq cs es
  termination_by cs _ => sizeOf cs
  decreasing_by
    · simp only [List.cons.sizeOf_spec]
      omega
    · simp only [List.cons.sizeOf_spec]
      omega
    · simp only [List.cons.sizeOf_spec]
      omega

end

/-- Height of the tree below this node: leaves have height 0; an internal
node is one higher than its first child (under the uniform-depth invariant
every child has the same height). -/
def height : BTreeNode → Nat
  | mk _ [] _ => 0
  | mk _ (c :: _) _ => height c + 1
  termination_by n => sizeOf n
  decreasing_by
    simp only [BTreeNode.sizeOf_mk, List.cons.sizeOf_spec]
    omega

/-- Modelled from the spec: BTreeNode::splitChild(i, y) is declared in the
header (line 23) with no body.  Per section 4.1: the full child y = children[i]
is split at the median index mid = degree - 1; a new sibling with the same
isLeaf flag receives entries mid+1 .. maxKeys-1 and children mid+1 ..
maxChildren-1; y retains entries 0 .. mid-1 and children 0 .. mid; the median
entry is inserted into this node's entry array at position i and the sibling
into the child array at position i+1.  The median's value moves with its key
(see the file header note). -/
def splitChild (d : Nat) : BTreeNode → Nat → BTreeNode
  | mk es cs lf, i =>
    if h1 : i < cs.length then
      let y := cs[i]
      if h2 : d - 1 < y.entries.length then
        let med := y.entries[d - 1]
        let leftNode : BTreeNode := mk (y.entries.take (d - 1)) (y.children.take d) y.isLeaf
        let rightNode : BTreeNode := mk (y.entries.drop d) (y.children.drop d) y.isLeaf
        mk (es.insertIdx i med) ((cs.set i leftNode).insertIdx (i + 1) rightNode) lf
      else mk es cs lf
    else mk es cs lf

/-- Modelled from the spec: BTreeNode::insertNonFull(key, value) is declared in
the header (line 22) with no body.  Per section 4.1: at a leaf, insert the
entry at its sorted position; at an internal node, locate the child index i for
the key, split children[i] first if it is full (shifting i right by one when
the promoted median key is below the new key), then recurse.  Duplicate keys
are overwritten in place (the policy chosen for the spec's open question). -/
def insertNonFull (d : Nat) : BTreeNode → Int → String → BTreeNode
  | mk es cs lf, k, v =>
    if (es[slot es k]?).map Prod.fst = some k then
      mk (es.set (slot es k) (k, v)) cs lf
    else if lf then
      mk (es.insertIdx (slot es k) (k, v)) cs lf
    else if hlt : slot es k < cs.length then
      if (cs[slot es k]).numKeys = maxKeys d then
        if hm : d - 1 < (cs[slot es k]).entries.length then
          let med := (cs[slot es k]).entries[d - 1]
          let leftNode : BTreeNode :=
            mk ((cs[slot es k]).entries.take (d - 1)) ((cs[slot es k]).children.take d)
              (cs[slot es k]).isLeaf
          let rightNode : BTreeNode :=
            mk ((cs[slot es k]).entries.drop d) ((cs[slot es k]).children.drop d)
              (cs[slot es k]).isLeaf
          let es' := es.insertIdx (slot es k) med
          let cs' := (cs.set (slot es k) leftNode).insertIdx (slot es k + 1) rightNode
          if med.1 < k then
            mk es' (cs'.set (slot es k + 1) (insertNonFull d rightNode k v)) lf
          else if med.1 = k then
            mk (es'.set (slot es k) (k, v)) cs' lf
          else
            mk es' (cs'.set (slot es k) (insertNonFull d leftNode k v)) lf
        else mk es cs lf
      else
        mk es (cs.set (slot es k) (insertNonFull d (cs[slot es k]) k v)) lf
    else mk es cs lf
  termination_by n _ _ => sizeOf n
  decreasing_by
    · have h1 := List.sizeOf_lt_of_mem (cs.getElem_mem hlt)
      have h2 := sizeOf_drop_le (α := Int × String) d ((cs[slot es k]).entries)
      have h3 := sizeOf_drop_le (α := BTreeNode) d ((cs[slot es k]).children)
      have h4 := sizeOf_decompose (cs[slot es k])
      simp only [BTreeNode.sizeOf_mk]
      omega
    · have h1 := List.sizeOf_lt_of_mem (cs.getElem_mem hlt)
      have h2 := sizeOf_take_le (α := Int × String) (d - 1) ((cs[slot es k]).entries)
      have h3 := sizeOf_take_le (α := BTreeNode) d ((cs[slot es k]).children)
      have h4 := sizeOf_decompose (cs[slot es k])
      simp only [BTreeNode.sizeOf_mk]
      omega
    · have h1 := List.sizeOf_lt_of_mem (cs.getElem_mem hlt)
      simp only [BTreeNode.sizeOf_mk]
      omega

end BTreeNode

/-- Modelled from the spec (section 7): the error kinds of the design. -/
inductive BTreeError : Type where
  | InvalidConfiguration
  | DuplicateKey
  | NotFound
deriving DecidableEq

/-- Modelled from the spec (section 2): the tree is the root node plus the
branching-factor constant fixed at construction. -/
structure BTree : Type where
  degree : Nat
  root : BTreeNode

/-- Modelled from the spec: the BTreeNode constructor (header line 15) has no
body.  Per sections 4.1 and 6 it produces an empty node (numKeys = 0) and
fails with InvalidConfiguration if degree < 2. -/
def mkNode (degree : Nat) (leaf : Bool) : Except BTreeError BTreeNode :=
  if degree < 2 then .error .InvalidConfiguration
  else .ok (.mk [] [] leaf)

/-- Modelled from the spec (section 6): createTree(degree) fails with
InvalidConfiguration if degree < 2, otherwise yields the tree whose root is a
fresh empty leaf node. -/
def createTree (degree : Nat) : Except BTreeError BTree :=
  match mkNode degree true with
  | .error e => .error e
  | .ok n => .ok ⟨degree, n⟩

/-- The empty tree of a given degree, the state right after a successful
createTree. -/
def emptyTree (degree : Nat) : BTree := ⟨degree, .mk [] [] true⟩

/-- Modelled from the spec (section 4.1, root growth protocol): the tree-level
insert checks whether the root is full before calling insertNonFull; if full,
a new empty root is created, the old root becomes its sole child,
splitChild(0, oldRoot) runs on the new root, and insertNonFull proceeds from
the new root. -/
def BTree.insert (t : BTree) (k : Int) (v : String) : BTree :=
  if t.root.numKeys = maxKeys t.degree then
    ⟨t.degree,
      (BTreeNode.splitChild t.degree (.mk [] [t.root] false) 0).insertNonFull t.degree k v⟩
  else
    ⟨t.degree, t.root.insertNonFull t.degree k v⟩

/-- Building a tree by a sequence of insertions from the empty tree. -/
def buildTree (degree : Nat) (ops : List (Int × String)) : BTree :=
  ops.foldl (fun t e => t.insert e.1 e.2) (emptyTree degree)

/-- Modelled from the spec (section 6): TreeHandle.search(key) returns the
found value or NotFound (modelled as none). -/
def BTree.searchValue (t : BTree) (k : Int) : Option String :=
  match t.root.search k with
  | some (n, i) => (n.entries[i]?).map Prod.snd
  | none => none

/-- Modelled from the spec (section 6): TreeHandle.traverse() yields the
ordered sequence of (key, value) pairs. -/
def BTree.traverse (t : BTree) : List (Int × String) := t.root.traverse

/-! ## Sorted association-list model of the tree contents -/

/-- Insertion into a sorted association list, overwriting an existing binding
of the same key: the reference model of what one insertion does to the
in-order contents of the tree. -/
def listInsert (k : Int) (v : String) : List (Int × String) → List (Int × String)
  | [] => [(k, v)]
  | e :: es =>
    if e.1 < k then e :: listInsert k v es
    else if e.1 = k then (k, v) :: es
    else (k, v) :: e :: es

/-- First-match lookup in an association list. -/
def lookupSorted (k : Int) : List (Int × String) → Option String
  | [] => none
  | e :: es => if e.1 = k then some e.2 else lookupSorted k es

/-- The association list obtained by performing a sequence of insertions on
the empty list: the reference model of a whole insertion sequence. -/
def applyOps (ops : List (Int × String)) : List (Int × String) :=
  ops.foldl (fun acc e => listInsert e.1 e.2 acc) []

theorem lookupSorted_listInsert_self (k : Int) (v : String) (l : List (Int × String)) :
    lookupSorted k (listInsert k v l) = some v := by
  induction l with
  | nil => simp [listInsert, lookupSorted]
  | cons e es ih =>
    by_cases h1 : e.1 < k
    · have h2 : e.1 ≠ k := ne_of_lt h1
      simp only [listInsert, if_pos h1, lookupSorted, if_neg h2]
      exact ih
    · by_cases h2 : e.1 = k
      · simp [listInsert, h1, h2, lookupSorted]
      · simp [listInsert, h1, h2, lookupSorted]

theorem lookupSorted_listInsert_ne (k k' : Int) (v : String) (l : List (Int × String))
    (hne : k' ≠ k) : lookupSorted k' (listInsert k v l) = lookupSorted k' l := by
  have hkk : ¬ (k = k') := fun h => hne h.symm
  induction l with
  | nil => simp [listInsert, lookupSorted, hkk]
  | cons e es ih =>
    by_cases h1 : e.1 < k
    · simp only [listInsert, if_pos h1, lookupSorted]
      by_cases h3 : e.1 = k'
      · simp [h3]
      · simp [h3, ih]
    · by_cases h2 : e.1 = k
      · have h3 : ¬ (e.1 = k') := by rw [h2]; exact hkk
        simp [listInsert, h1, h2, lookupSorted, hkk, h3]
      · simp [listInsert, h1, h2, lookupSorted, hkk]

theorem mem_keys_listInsert (k k' : Int) (v : String) (l : List (Int × String)) :
    k' ∈ (listInsert k v l).map Prod.fst ↔ k' = k ∨ k' ∈ l.map Prod.fst := by
  induction l with
  | nil => simp [listInsert]
  | cons e es ih =>
    by_cases h1 : e.1 < k
    · simp only [listInsert, if_pos h1, List.map_cons, List.mem_cons, ih]
      tauto
    · by_cases h2 : e.1 = k
      · simp only [listInsert, if_neg h1, if_pos h2, List.map_cons, List.mem_cons]
        rw [h2]
        tauto
      · simp only [listInsert, if_neg h1, if_neg h2, List.map_cons, List.mem_cons]

theorem chain'_keys_listInsert (k : Int) (v : String) (l : List (Int × String))
    (hs : l.map Prod.fst |>.Chain' (· < ·)) :
    (listInsert k v l).map Prod.fst |>.Chain' (· < ·) := by
  induction l with
  | nil => simp [listInsert]
  | cons e es ih =>
    by_cases h1 : e.1 < k
    · simp only [List.map_cons, List.chain'_cons'] at hs
      have ih2 := ih hs.2
      simp only [listInsert, if_pos h1, List.map_cons, List.chain'_cons']
      refine ⟨?_, ih2⟩
      intro y hy
      rcases es with _ | ⟨e2, es2⟩
      · simp [listInsert] at hy
        omega
      · by_cases hb : e2.1 < k
        · simp [listInsert, hb] at hy
          subst hy
          exact hs.1 e2.1 rfl
        · by_cases hc : e2.1 = k
          · simp [listInsert, hb, hc] at hy
            subst hy
            omega
          · simp [listInsert, hb, hc] at hy
            subst hy
            omega
    · by_cases h2 : e.1 = k
      · simp only [List.map_cons, List.chain'_cons'] at hs
        simp only [listInsert, if_neg h1, if_pos h2, List.map_cons, List.chain'_cons']
        refine ⟨?_, hs.2⟩
        intro y hy
        have := hs.1 y hy
        omega
      · simp only [List.map_cons, List.chain'_cons'] at hs
        simp only [listInsert, if_neg h1, if_neg h2, List.map_cons, List.chain'_cons']
        constructor
        · intro y hy
          simp at hy
          subst hy
          omega
        · exact ⟨hs.1, hs.2⟩

/-! ## Computation lemmas for slot -/

namespace BTreeNode

theorem slot_nil (k : Int) : slot [] k = 0 := rfl

theorem slot_cons (e : Int × String) (es : List (Int × String)) (k : Int) :
    slot (e :: es) k = if e.1 < k then slot es k + 1 else 0 := by
  by_cases h : e.1 < k <;> simp [slot, List.takeWhile_cons, h]

/-- The split-then-insert step performed on one child of an internal node:
if the child is full it is split at the median (spec section 4.1) and the
insertion recurses into the proper half; the result is the list of entries to
splice into the parent together with the replacement children. -/
def insertHere (d : Nat) (k : Int) (v : String) (c : BTreeNode) :
    List (Int × String) × List BTreeNode :=
  if c.numKeys = maxKeys d then
    if hm : d - 1 < c.entries.length then
      let med := c.entries[d - 1]
      let leftNode : BTreeNode := mk (c.entries.take (d - 1)) (c.children.take d) c.isLeaf
      let rightNode : BTreeNode := mk (c.entries.drop d) (c.children.drop d) c.isLeaf
      if med.1 < k then ([med], [leftNode, insertNonFull d rightNode k v])
      else if med.1 = k then ([(k, v)], [leftNode, rightNode])
      else ([med], [insertNonFull d leftNode k v, rightNode])
    else ([], [c])
  else ([], [insertNonFull d c k v])

theorem insertNonFull_leaf (d : Nat) (es : List (Int × String)) (cs : List BTreeNode)
    (k : Int) (v : String) :
    insertNonFull d (mk es cs true) k v =
      if (es[slot es k]?).map Prod.fst = some k then mk (es.set (slot es k) (k, v)) cs true
      else mk (es.insertIdx (slot es k) (k, v)) cs true := by
  rw [insertNonFull.eq_def]
  by_cases h : (es[slot es k]?).map Prod.fst = some k <;> simp [h]

theorem insertNonFull_cons_lt (d : Nat) (e : Int × String) (es : List (Int × String))
    (c : BTreeNode) (cs : List BTreeNode) (k : Int) (v : String) (hlt : e.1 < k) :
    insertNonFull d (mk (e :: es) (c :: cs) false) k v =
      mk (e :: (insertNonFull d (mk es cs false) k v).entries)
        (c :: (insertNonFull d (mk es cs false) k v).children) false := by
  conv_lhs => rw [insertNonFull.eq_def]
  conv_rhs => rw [insertNonFull.eq_def]
  simp only [slot_cons, if_pos hlt, List.getElem?_cons_succ, List.length_cons,
    Nat.add_lt_add_iff_right, List.getElem_cons_succ]
  by_cases hf : (es[slot es k]?).map Prod.fst = some k
  · simp [hf, List.set_cons_succ, entries_mk, children_mk]
  · simp only [hf, Bool.false_eq_true, reduceIte]
    by_cases hin : slot es k < cs.length
    · simp only [dif_pos hin]
      by_cases hfull : (cs[slot es k]).numKeys = maxKeys d
      · simp only [if_pos hfull]
        by_cases hmed : d - 1 < (cs[slot es k]).entries.length
        · simp only [dif_pos hmed]
          by_cases h3 : ((cs[slot es k]).entries[d - 1]).1 < k
          · simp only [if_pos h3, entries_mk, children_mk, List.set_cons_succ,
              List.insertIdx_succ_cons, and_self]
          · simp only [if_neg h3]
            by_cases h4 : ((cs[slot es k]).entries[d - 1]).1 = k
            · simp only [if_pos h4, entries_mk, children_mk, List.set_cons_succ,
                List.insertIdx_succ_cons, and_self]
            · simp only [if_neg h4, entries_mk, children_mk, List.set_cons_succ,
                List.insertIdx_succ_cons, and_self]
        · simp only [dif_neg hmed, entries_mk, children_mk]
      · simp only [if_neg hfull, entries_mk, children_mk, List.set_cons_succ]
    · simp only [dif_neg hin, entries_mk, children_mk]

theorem insertNonFull_head_found (d : Nat) (e : Int × String) (es : List (Int × String))
    (cs : List BTreeNode) (lf : Bool) (k : Int) (v : String)
    (h1 : ¬ e.1 < k) (h2 : e.1 = k) :
    insertNonFull d (mk (e :: es) cs lf) k v = mk ((k, v) :: es) cs lf := by
  rw [insertNonFull.eq_def]
  simp [slot_cons, h1, h2]

theorem insertNonFull_head_child (d : Nat) (e : Int × String) (es : List (Int × String))
    (c : BTreeNode) (cs : List BTreeNode) (k : Int) (v : String)
    (h1 : ¬ e.1 < k) (h2 : ¬ e.1 = k) :
    insertNonFull d (mk (e :: es) (c :: cs) false) k v =
      mk ((insertHere d k v c).1 ++ e :: es) ((insertHere d k v c).2 ++ cs) false := by
  rw [insertNonFull.eq_def]
  have hne : ¬ e.1 = k := h2
  simp only [slot_cons, if_neg h1, List.getElem?_cons_zero, Option.map_some,
    Option.some.injEq, hne, Bool.false_eq_true, reduceIte, List.length_cons,
    Nat.zero_lt_succ, dif_pos, List.getElem_cons_zero, insertHere]
  by_cases hfull : c.numKeys = maxKeys d
  · simp only [if_pos hfull]
    by_cases hmed : d - 1 < c.entries.length
    · simp only [dif_pos hmed]
      by_cases h3 : (c.entries[d - 1]).1 < k
      · simp [h3, h2, List.insertIdx_succ_cons]
      · by_cases h4 : (c.entries[d - 1]).1 = k
        · simp [h3, h4, h2, List.insertIdx_succ_cons]
        · simp [h3, h4, h2, List.insertIdx_succ_cons]
    · simp [dif_neg hmed, h2]
  · simp [if_neg hfull, h2]

theorem insertNonFull_nil_child (d : Nat) (c : BTreeNode) (cs : List BTreeNode)
    (k : Int) (v : String) :
    insertNonFull d (mk [] (c :: cs) false) k v =
      mk (insertHere d k v c).1 ((insertHere d k v c).2 ++ cs) false := by
  rw [insertNonFull.eq_def]
  simp only [slot_nil, List.getElem?_nil, Option.map_none, Bool.false_eq_true, reduceIte,
    List.length_cons, Nat.zero_lt_succ, dif_pos, List.getElem_cons_zero, insertHere]
  by_cases hfull : c.numKeys = maxKeys d
  · simp only [if_pos hfull]
    by_cases hmed : d - 1 < c.entries.length
    · simp only [dif_pos hmed]
      by_cases h3 : (c.entries[d - 1]).1 < k
      · simp [h3, List.insertIdx_succ_cons]
      · by_cases h4 : (c.entries[d - 1]).1 = k
        · simp [h3, h4, List.insertIdx_succ_cons]
        · simp [h3, h4, List.insertIdx_succ_cons]
    · simp [dif_neg hmed]
  · simp [if_neg hfull]

theorem search_leaf (es : List (Int × String)) (cs : List BTreeNode) (k : Int) :
    search (mk es cs true) k =
      if (es[slot es k]?).map Prod.fst = some k then some (mk es cs true, slot es k)
      else none := by
  rw [search.eq_def]
  by_cases h : (es[slot es k]?).map Prod.fst = some k <;> simp [h]

theorem search_internal (es : List (Int × String)) (cs : List BTreeNode) (k : Int) :
    search (mk es cs false) k =
      if (es[slot es k]?).map Prod.fst = some k then some (mk es cs false, slot es k)
      else if h : slot es k < cs.length then search cs[slot es k] k
      else none := by
  rw [search.eq_def]
  simp

theorem traverse_leaf (es : List (Int × String)) (cs : List BTreeNode) :
    traverse (mk es cs true) = es := by
  rw [traverse.eq_def]
  simp

theorem traverse_internal (es : List (Int × String)) (cs : List BTreeNode) :
    traverse (mk es cs false) = traverseSeq cs es := by
  rw [traverse.eq_def]
  simp

theorem traverseSeq_nil (es : List (Int × String)) : traverseSeq [] es = [] := by
  rw [traverseSeq.eq_def]

theorem traverseSeq_last (c : BTreeNode) (cs : List BTreeNode) :
    traverseSeq (c :: cs) [] = traverse c := by
  rw [traverseSeq.eq_def]

theorem traverseSeq_cons (c : BTreeNode) (cs : List BTreeNode) (e : Int × String)
    (es : List (Int × String)) :
    traverseSeq (c :: cs) (e :: es) = traverse c ++ e :: traverseSeq cs es := by
  rw [traverseSeq.eq_def]

theorem height_nil (es : List (Int × String)) (lf : Bool) : height (mk es [] lf) = 0 := by
  rw [height.eq_def]

theorem height_cons (es : List (Int × String)) (c : BTreeNode) (cs : List BTreeNode)
    (lf : Bool) : height (mk es (c :: cs) lf) = height c + 1 := by
  rw [height.eq_def]

/-! ## The B-tree invariants (spec section 3) -/

/-- An optional strict lower bound: every key in a subtree delimited on the
left by a separator key must exceed it (no bound at the leftmost edge). -/
def lbOK : Option Int → Int → Prop
  | none, _ => True
  | some l, k => l < k

/-- An optional strict upper bound, symmetric to lbOK. -/
def ubOK : Option Int → Int → Prop
  | none, _ => True
  | some u, k => k < u

instance (lo : Option Int) (k : Int) : Decidable (lbOK lo k) := by
  cases lo with
  | none => exact inferInstanceAs (Decidable True)
  | some l => exact inferInstanceAs (Decidable (l < k))

instance (hi : Option Int) (k : Int) : Decidable (ubOK hi k) := by
  cases hi with
  | none => exact inferInstanceAs (Decidable True)
  | some u => exact inferInstanceAs (Decidable (k < u))

theorem lbOK_none (k : Int) : lbOK none k := trivial

theorem ubOK_none (k : Int) : ubOK none k := trivial

theorem lbOK_mono {lo : Option Int} {a b : Int} (h : lbOK lo a) (hab : a ≤ b) : lbOK lo b := by
  cases lo with
  | none => trivial
  | some l => exact lt_of_lt_of_le h hab

theorem ubOK_mono {hi : Option Int} {a b : Int} (h : ubOK hi a) (hab : b ≤ a) : ubOK hi b := by
  cases hi with
  | none => trivial
  | some u => exact lt_of_le_of_lt hab h

/-- Keys strictly increasing and all within the open interval given by the
optional bounds: invariant 3 of the spec at the level of one key list. -/
def sortedIn (lo hi : Option Int) (ks : List Int) : Prop :=
  ks.Chain' (· < ·) ∧ ∀ k ∈ ks, lbOK lo k ∧ ubOK hi k

mutual

/-- Well-formedness of a non-root subtree of a B-tree of minimum degree d,
with all keys strictly inside the optional bounds (lo, hi) and all leaves at
depth exactly h below this node: invariants 1 to 4 of spec section 3. -/
inductive WFNode (d : Nat) : Option Int → Option Int → Nat → BTreeNode → Prop where
  | leaf : ∀ (lo hi : Option Int) (es : List (Int × String)),
      d - 1 ≤ es.length → es.length ≤ maxKeys d →
      sortedIn lo hi (es.map Prod.fst) →
      WFNode d lo hi 0 (.mk es [] true)
  | internal : ∀ (lo hi : Option Int) (h : Nat) (es : List (Int × String)) (cs : List BTreeNode),
      d - 1 ≤ es.length → es.length ≤ maxKeys d →
      WFSeq d h lo es cs hi →
      WFNode d lo hi (h + 1) (.mk es cs false)

/-- Well-formedness of the alternating child/separator sequence of an internal
node: every child is a well-formed subtree of height h whose keys lie strictly
between the neighbouring separators, and the separators lie strictly inside
(lo, hi).  The sequence shape forces len(children) = len(keys) + 1. -/
inductive WFSeq (d : Nat) : Nat → Option Int → List (Int × String) → List BTreeNode →
    Option Int → Prop where
  | last : ∀ (h : Nat) (lo hi : Option Int) (c : BTreeNode),
      WFNode d lo hi h c → WFSeq d h lo [] [c] hi
  | cons : ∀ (h : Nat) (lo hi : Option Int) (e : Int × String) (es : List (Int × String))
      (c : BTreeNode) (cs : List BTreeNode),
      lbOK lo e.1 → ubOK hi e.1 →
      WFNode d lo (some e.1) h c →
      WFSeq d h (some e.1) es cs hi →
      WFSeq d h lo (e :: es) (c :: cs) hi

end

/-- Well-formedness of the root node: as WFNode but the lower size bound on
the key count is waived (spec invariant 2: the root may hold fewer than
degree - 1 keys, including zero). -/
inductive WFRoot (d : Nat) : Nat → BTreeNode → Prop where
  | leaf : ∀ es : List (Int × String),
      es.length ≤ maxKeys d →
      sortedIn none none (es.map Prod.fst) →
      WFRoot d 0 (.mk es [] true)
  | internal : ∀ (h : Nat) (es : List (Int × String)) (cs : List BTreeNode),
      es.length ≤ maxKeys d →
      WFSeq d h none es cs none →
      WFRoot d (h + 1) (.mk es cs false)

/-- Single-motive induction on a WFSeq derivation (a derivation follows the
structure of the separator list, so list induction suffices). -/
theorem WFSeq.ind {d h : Nat} {hi : Option Int}
    (P : Option Int → List (Int × String) → List BTreeNode → Prop)
    (hlast : ∀ (lo : Option Int) (c : BTreeNode), WFNode d lo hi h c → P lo [] [c])
    (hcons : ∀ (lo : Option Int) (e : Int × String) (es : List (Int × String))
      (c : BTreeNode) (cs : List BTreeNode),
      lbOK lo e.1 → ubOK hi e.1 → WFNode d lo (some e.1) h c →
      WFSeq d h (some e.1) es cs hi → P (some e.1) es cs → P lo (e :: es) (c :: cs)) :
    ∀ {lo : Option Int} {es : List (Int × String)} {cs : List BTreeNode},
      WFSeq d h lo es cs hi → P lo es cs := by
  intro lo es cs w
  induction es generalizing lo cs with
  | nil =>
    cases w with
    | last _ _ _ c hc => exact hlast lo c hc
  | cons e es2 ih =>
    cases w with
    | cons _ _ _ _ _ c cs2 hlb hub hc hrest =>
      exact hcons lo e es2 c cs2 hlb hub hc hrest (ih hrest)

theorem WFSeq.length {d : Nat} {h : Nat} {lo hi : Option Int} {es : List (Int × String)}
    {cs : List BTreeNode} (w : WFSeq d h lo es cs hi) : cs.length = es.length + 1 := by
  induction es generalizing lo cs with
  | nil => cases w; simp
  | cons e es2 ih =>
    cases w with
    | cons _ _ _ _ _ c cs2 _ _ _ hrest => simpa using ih hrest

theorem WFSeq.children_nonempty {d : Nat} {h : Nat} {lo hi : Option Int}
    {es : List (Int × String)} {cs : List BTreeNode} (w : WFSeq d h lo es cs hi) :
    cs ≠ [] := by
  cases w <;> simp


theorem listInsert_append_right (k : Int) (v : String) (l1 l2 : List (Int × String))
    (hk : ∀ e ∈ l1, e.1 < k) :
    listInsert k v (l1 ++ l2) = l1 ++ listInsert k v l2 := by
  induction l1 with
  | nil => simp
  | cons e es ih =>
    have he : e.1 < k := hk e (List.mem_cons_self e es)
    simp only [List.cons_append, listInsert, if_pos he, List.append_eq]
    rw [ih (fun x hx => hk x (List.mem_cons_of_mem e hx))]

theorem listInsert_append_left (k : Int) (v : String) (l1 l2 : List (Int × String))
    (hk : ∀ e ∈ l2, k < e.1) :
    listInsert k v (l1 ++ l2) = listInsert k v l1 ++ l2 := by
  induction l1 with
  | nil =>
    cases l2 with
    | nil => simp [listInsert]
    | cons e es =>
      have he : k < e.1 := hk e (List.mem_cons_self e es)
      have h1 : ¬ e.1 < k := by omega
      have h2 : ¬ e.1 = k := by omega
      simp [listInsert, h1, h2]
  | cons e es ih =>
    by_cases h1 : e.1 < k
    · simp only [List.cons_append, listInsert, if_pos h1, List.append_eq]
      rw [ih]
    · by_cases h2 : e.1 = k
      · simp [listInsert, h1, h2]
      · simp [listInsert, h1, h2]

theorem lookupSorted_append (k : Int) (l1 l2 : List (Int × String)) :
    lookupSorted k (l1 ++ l2) =
      match lookupSorted k l1 with
      | some v => some v
      | none => lookupSorted k l2 := by
  induction l1 with
  | nil => simp [lookupSorted]
  | cons e es ih =>
    by_cases h : e.1 = k
    · simp [lookupSorted, h]
    · simp [lookupSorted, h, ih]

theorem lookupSorted_eq_none (k : Int) (l : List (Int × String))
    (h : ∀ e ∈ l, e.1 ≠ k) : lookupSorted k l = none := by
  induction l with
  | nil => rfl
  | cons e es ih =>
    have := h e (List.mem_cons_self e es)
    simp [lookupSorted, this, ih (fun x hx => h x (List.mem_cons_of_mem e hx))]

theorem lookupSorted_none_iff (k : Int) (l : List (Int × String)) :
    lookupSorted k l = none ↔ ∀ e ∈ l, e.1 ≠ k := by
  constructor
  · intro h e he hk
    induction l with
    | nil => cases he
    | cons e2 es ih =>
      by_cases h2 : e2.1 = k
      · simp [lookupSorted, h2] at h
      · simp only [lookupSorted, h2, ite_false, if_neg] at h
        rcases List.mem_cons.mp he with h3 | h3
        · exact h2 (h3 ▸ hk)
        · exact ih h h3
  · exact lookupSorted_eq_none k l

/-- All entries produced by traversing a well-formed subtree lie strictly
inside the subtree's bounds. -/
theorem wf_traverse_bounds : ∀ (h : Nat) {d : Nat} {lo hi : Option Int} {n : BTreeNode},
    WFNode d lo hi h n → ∀ e ∈ n.traverse, lbOK lo e.1 ∧ ubOK hi e.1 := by
  intro h
  induction h with
  | zero =>
    intro d lo hi n w e he
    cases w with
    | leaf lo hi es h1 h2 hs =>
      rw [traverse_leaf] at he
      exact hs.2 e.1 (List.mem_map_of_mem Prod.fst he)
  | succ h ih =>
    intro d lo hi n w e he
    cases w with
    | internal lo hi _ es cs hlen1 hlen2 hseq =>
      rw [traverse_internal] at he
      revert e he
      refine WFSeq.ind
        (P := fun lo es cs => ∀ e ∈ traverseSeq cs es, lbOK lo e.1 ∧ ubOK hi e.1)
        ?_ ?_ hseq
      · intro lo c hc e he
        rw [traverseSeq_last] at he
        exact ih hc e he
      · intro lo e2 es2 c cs2 hlb hub hc hrest hP e he
        rw [traverseSeq_cons] at he
        rcases List.mem_append.mp he with h1 | h1
        · rcases ih hc e h1 with ⟨ha, hb⟩
          exact ⟨ha, ubOK_mono hub (le_of_lt hb)⟩
        · rcases List.mem_cons.mp h1 with h2 | h2
          · rw [h2]; exact ⟨hlb, hub⟩
          · rcases hP e h2 with ⟨ha, hb⟩
            exact ⟨lbOK_mono hlb (le_of_lt ha), hb⟩

/-- A well-formed subtree's computed height agrees with the invariant's
height index (all leaves at uniform depth). -/
theorem wf_height : ∀ (h : Nat) {d : Nat} {lo hi : Option Int} {n : BTreeNode},
    WFNode d lo hi h n → n.height = h := by
  intro h
  induction h with
  | zero =>
    intro d lo hi n w
    cases w with
    | leaf lo hi es h1 h2 hs => exact height_nil es true
  | succ h ih =>
    intro d lo hi n w
    cases w with
    | internal lo hi _ es cs hlen1 hlen2 hseq =>
      cases hseq with
      | last _ _ _ c hc => rw [height_cons, ih hc]
      | cons _ _ _ e es2 c cs2 _ _ hc _ => rw [height_cons, ih hc]

theorem sortedIn_split (lo hi : Option Int) (ks : List Int) (j : Nat)
    (hs : sortedIn lo hi ks) (hj : j < ks.length) :
    sortedIn lo (some ks[j]) (ks.take j) ∧ sortedIn (some ks[j]) hi (ks.drop (j + 1)) ∧
    lbOK lo ks[j] ∧ ubOK hi ks[j] := by
  have hdec : ks.take j ++ ks[j] :: ks.drop (j + 1) = ks := by
    conv_rhs => rw [← List.take_append_drop j ks]
    rw [List.drop_eq_getElem_cons hj]
  have hpw : ks.Pairwise (· < ·) := List.chain'_iff_pairwise.mp hs.1
  have hpw2 : (ks.take j ++ ks[j] :: ks.drop (j + 1)).Pairwise (· < ·) := by
    rw [hdec]; exact hpw
  rw [List.pairwise_append] at hpw2
  rcases hpw2 with ⟨pw1, pw2, cross⟩
  rw [List.pairwise_cons] at pw2
  rcases pw2 with ⟨pwmed, pw3⟩
  have hmem : ∀ x ∈ ks.take j, x ∈ ks := fun x hx => List.mem_of_mem_take hx
  have hmem2 : ∀ x ∈ ks.drop (j + 1), x ∈ ks := fun x hx => List.mem_of_mem_drop hx
  have hmedmem : ks[j] ∈ ks := List.getElem_mem hj
  refine ⟨⟨List.chain'_iff_pairwise.mpr pw1, ?_⟩, ⟨List.chain'_iff_pairwise.mpr pw3, ?_⟩, ?_, ?_⟩
  · intro x hx
    refine ⟨(hs.2 x (hmem x hx)).1, ?_⟩
    exact cross x hx ks[j] (List.mem_cons_self _ _)
  · intro x hx
    exact ⟨pwmed x hx, (hs.2 x (hmem2 x hx)).2⟩
  · exact (hs.2 ks[j] hmedmem).1
  · exact (hs.2 ks[j] hmedmem).2

theorem wfseq_split {d h : Nat} {hi : Option Int} :
    ∀ (j : Nat) {lo : Option Int} {es : List (Int × String)} {cs : List BTreeNode},
    WFSeq d h lo es cs hi → ∀ (hj : j < es.length),
    WFSeq d h lo (es.take j) (cs.take (j + 1)) (some (es[j].1)) ∧
    WFSeq d h (some (es[j].1)) (es.drop (j + 1)) (cs.drop (j + 1)) hi ∧
    lbOK lo (es[j].1) ∧ ubOK hi (es[j].1) := by
  intro j
  induction j with
  | zero =>
    intro lo es cs w hj
    cases w with
    | last => simp at hj
    | cons _ _ _ e es2 c cs2 hlb hub hc hrest =>
      refine ⟨?_, ?_, ?_, ?_⟩
      · simpa using WFSeq.last h _ _ c hc
      · simpa using hrest
      · simpa using hlb
      · simpa using hub
  | succ jj ih =>
    intro lo es cs w hj
    cases w with
    | last => simp at hj
    | cons _ _ _ e es2 c cs2 hlb hub hc hrest =>
      have hj2 : jj < es2.length := by simpa using hj
      rcases ih hrest hj2 with ⟨L, R, hl, hu⟩
      have hlt : e.1 < es2[jj].1 := hl
      refine ⟨?_, ?_, ?_, ?_⟩
      · simpa using WFSeq.cons h _ _ e (es2.take jj) c (cs2.take (jj + 1)) hlb
          (show ubOK (some (es2[jj].1)) e.1 from hlt) hc L
      · simpa using R
      · simpa using lbOK_mono hlb (le_of_lt hlt)
      · simpa using hu

theorem traverseSeq_split :
    ∀ (j : Nat) (es : List (Int × String)) (cs : List BTreeNode),
    cs.length = es.length + 1 → ∀ (hj : j < es.length),
    traverseSeq cs es =
      traverseSeq (cs.take (j + 1)) (es.take j) ++
        es[j] :: traverseSeq (cs.drop (j + 1)) (es.drop (j + 1)) := by
  intro j
  induction j with
  | zero =>
    intro es cs hlen hj
    cases es with
    | nil => simp at hj
    | cons e es2 =>
      cases cs with
      | nil => simp at hlen
      | cons c cs2 =>
        simp [traverseSeq_cons, traverseSeq_last]
  | succ jj ih =>
    intro es cs hlen hj
    cases es with
    | nil => simp at hj
    | cons e es2 =>
      cases cs with
      | nil => simp at hlen
      | cons c cs2 =>
        have hlen2 : cs2.length = es2.length + 1 := by simpa using hlen
        have hj2 : jj < es2.length := by simpa using hj
        simp only [traverseSeq_cons, List.take_succ_cons, List.drop_succ_cons,
          List.getElem_cons_succ]
        rw [ih es2 cs2 hlen2 hj2]
        simp [traverseSeq_cons]

/-- Splitting a full well-formed node at its median (spec section 4.1) yields
two well-formed halves of the same height holding degree - 1 entries each,
strictly separated by the median, and preserves the in-order contents. -/
theorem wf_split (h : Nat) {d : Nat} {lo hi : Option Int} {c : BTreeNode} {med : Int × String}
    (hd : 2 ≤ d) (w : WFNode d lo hi h c) (hfull : c.numKeys = maxKeys d)
    (hmed : c.entries[d - 1]? = some med) :
    WFNode d lo (some med.1) h
      (mk (c.entries.take (d - 1)) (c.children.take d) c.isLeaf) ∧
    WFNode d (some med.1) hi h
      (mk (c.entries.drop d) (c.children.drop d) c.isLeaf) ∧
    lbOK lo med.1 ∧ ubOK hi med.1 ∧
    traverse (mk (c.entries.take (d - 1)) (c.children.take d) c.isLeaf) ++
      med :: traverse (mk (c.entries.drop d) (c.children.drop d) c.isLeaf) =
      traverse c := by
  have hd1 : d - 1 + 1 = d := by omega
  cases w with
  | leaf lo hi es h1 h2 hs =>
    simp only [entries_mk, children_mk, isLeaf_mk, numKeys, List.take_nil,
      List.drop_nil] at hfull hmed ⊢
    have hm : d - 1 < es.length := by
      by_contra hcon
      rw [List.getElem?_eq_none (by omega)] at hmed
      cases hmed
    have heq : es[d - 1] = med := by
      rw [List.getElem?_eq_getElem hm] at hmed
      injection hmed
    have hlen : es.length = 2 * d - 1 := by simpa [maxKeys] using hfull
    have hmk : d - 1 < (es.map Prod.fst).length := by simpa using hm
    have hkey : (es.map Prod.fst)[d - 1] = med.1 := by
      rw [List.getElem_map Prod.fst, heq]
    rcases sortedIn_split lo hi (es.map Prod.fst) (d - 1) hs hmk with ⟨SL, SR, hl, hu⟩
    rw [hkey] at SL SR hl hu
    rw [hd1] at SR
    refine ⟨?_, ?_, hl, hu, ?_⟩
    · refine WFNode.leaf _ _ _ ?_ ?_ ?_
      · simp
        omega
      · simp [maxKeys]
        omega
      · rw [List.map_take]
        exact SL
    · refine WFNode.leaf _ _ _ ?_ ?_ ?_
      · simp
        omega
      · simp [maxKeys]
        omega
      · rw [List.map_drop]
        exact SR
    · rw [traverse_leaf, traverse_leaf, traverse_leaf]
      conv_rhs => rw [← List.take_append_drop (d - 1) es]
      rw [List.drop_eq_getElem_cons hm, hd1, heq]
  | internal lo hi h2 es cs h1a h1b hseq =>
    simp only [entries_mk, children_mk, isLeaf_mk, numKeys] at hfull hmed ⊢
    have hm : d - 1 < es.length := by
      by_contra hcon
      rw [List.getElem?_eq_none (by omega)] at hmed
      cases hmed
    have heq : es[d - 1] = med := by
      rw [List.getElem?_eq_getElem hm] at hmed
      injection hmed
    have hlen : es.length = 2 * d - 1 := by simpa [maxKeys] using hfull
    rcases wfseq_split (d - 1) hseq hm with ⟨L, R, hl, hu⟩
    rw [heq] at L R hl hu
    rw [hd1] at L R
    have hcslen : cs.length = es.length + 1 := hseq.length
    refine ⟨?_, ?_, hl, hu, ?_⟩
    · refine WFNode.internal _ _ _ _ _ ?_ ?_ L
      · simp
        omega
      · simp [maxKeys]
        omega
    · refine WFNode.internal _ _ _ _ _ ?_ ?_ R
      · simp
        omega
      · simp [maxKeys]
        omega
    · rw [traverse_internal, traverse_internal, traverse_internal]
      rw [traverseSeq_split (d - 1) es cs hcslen hm]
      rw [hd1, heq]

theorem lbOK_some {x y : Int} : lbOK (some x) y ↔ x < y := Iff.rfl

theorem ubOK_some {x y : Int} : ubOK (some x) y ↔ y < x := Iff.rfl

theorem wf_numKeys_le {d h : Nat} {lo hi : Option Int} {n : BTreeNode}
    (w : WFNode d lo hi h n) : n.numKeys ≤ maxKeys d := by
  cases w with
  | leaf _ _ es _ h2 _ => simpa [numKeys] using h2
  | internal _ _ _ es cs _ h2 _ => simpa [numKeys] using h2

theorem wf_numKeys_ge {d h : Nat} {lo hi : Option Int} {n : BTreeNode}
    (w : WFNode d lo hi h n) : d - 1 ≤ n.numKeys := by
  cases w with
  | leaf _ _ es h1 _ _ => simpa [numKeys] using h1
  | internal _ _ _ es cs h1 _ _ => simpa [numKeys] using h1

theorem length_listInsert (k : Int) (v : String) (l : List (Int × String)) :
    l.length ≤ (listInsert k v l).length ∧ (listInsert k v l).length ≤ l.length + 1 := by
  induction l with
  | nil => simp [listInsert]
  | cons e es ih =>
    by_cases h1 : e.1 < k
    · simp only [listInsert, if_pos h1, List.length_cons]
      omega
    · by_cases h2 : e.1 = k
      · simp [listInsert, h1, h2]
      · simp [listInsert, h1, h2]

/-- The leaf insertion step at the slot position computes exactly the sorted
overwrite insertion, on any entry list. -/
theorem listInsert_eq_slot (k : Int) (v : String) (es : List (Int × String)) :
    listInsert k v es =
      if (es[slot es k]?).map Prod.fst = some k then es.set (slot es k) (k, v)
      else es.insertIdx (slot es k) (k, v) := by
  induction es with
  | nil => simp [listInsert, slot_nil]
  | cons e es2 ih =>
    by_cases h1 : e.1 < k
    · simp only [slot_cons, if_pos h1, List.getElem?_cons_succ, List.set_cons_succ,
        List.insertIdx_succ_cons, listInsert]
      rw [ih]
      by_cases hc : (es2[slot es2 k]?).map Prod.fst = some k <;> simp [hc]
    · by_cases h2 : e.1 = k
      · simp [slot_cons, h1, h2, listInsert]
      · simp [slot_cons, h1, h2, listInsert]

/-- Seq-level version of wf_traverse_bounds. -/
theorem wfseq_traverse_bounds (h : Nat) {d : Nat} {hi : Option Int} :
    ∀ {lo : Option Int} {es : List (Int × String)} {cs : List BTreeNode},
    WFSeq d h lo es cs hi → ∀ x ∈ traverseSeq cs es, lbOK lo x.1 ∧ ubOK hi x.1 := by
  intro lo es cs w
  refine WFSeq.ind
    (P := fun lo es cs => ∀ x ∈ traverseSeq cs es, lbOK lo x.1 ∧ ubOK hi x.1) ?_ ?_ w
  · intro lo c hc x hx
    rw [traverseSeq_last] at hx
    exact wf_traverse_bounds h hc x hx
  · intro lo e es2 c cs2 hlb hub hc hrest hP x hx
    rw [traverseSeq_cons] at hx
    rcases List.mem_append.mp hx with h1 | h1
    · rcases wf_traverse_bounds h hc x h1 with ⟨ha, hb⟩
      exact ⟨ha, ubOK_mono hub (le_of_lt hb)⟩
    · rcases List.mem_cons.mp h1 with h2 | h2
      · rw [h2]; exact ⟨hlb, hub⟩
      · rcases hP x h2 with ⟨ha, hb⟩
        exact ⟨lbOK_mono hlb (le_of_lt ha), hb⟩

/-- The statement of insertNonFull preservation at height h: insertion into a
non-full well-formed subtree preserves well-formedness, height, and bounds,
and acts on the in-order contents as the sorted overwrite insertion. -/
def InsP (d h : Nat) (k : Int) (v : String) : Prop :=
  ∀ {lo hi : Option Int} {n : BTreeNode}, WFNode d lo hi h n →
    n.numKeys < maxKeys d → lbOK lo k → ubOK hi k →
    WFNode d lo hi h (insertNonFull d n k v) ∧
    (insertNonFull d n k v).traverse = listInsert k v n.traverse

/-- Effect of the split-then-insert step on one well-formed child, given the
insertion property at the child height: either the child was not full and is
simply replaced, or it was split into two separated well-formed halves with
the insertion landing in the proper half; contents transform as listInsert. -/
theorem insertHere_wf (h : Nat) {d : Nat} {k : Int} {v : String} (hd : 2 ≤ d)
    (ihnode : InsP d h k v) {lo hi : Option Int} {c : BTreeNode}
    (w : WFNode d lo hi h c) (hlb : lbOK lo k) (hub : ubOK hi k) :
    (∃ c2, insertHere d k v c = ([], [c2]) ∧ WFNode d lo hi h c2 ∧
      c2.traverse = listInsert k v c.traverse) ∨
    (∃ m n1 n2, insertHere d k v c = ([m], [n1, n2]) ∧ lbOK lo m.1 ∧ ubOK hi m.1 ∧
      WFNode d lo (some m.1) h n1 ∧ WFNode d (some m.1) hi h n2 ∧
      n1.traverse ++ m :: n2.traverse = listInsert k v c.traverse) := by
  by_cases hfull : c.numKeys = maxKeys d
  · have hm : d - 1 < c.entries.length := by
      have h5 : c.entries.length = 2 * d - 1 := by simpa [numKeys, maxKeys] using hfull
      omega
    have hmed : c.entries[d - 1]? = some (c.entries[d - 1]) := List.getElem?_eq_getElem hm
    rcases wf_split h hd w hfull hmed with ⟨WL, WR, hl, hu, htrav⟩
    have hfull2 : c.entries.length = 2 * d - 1 := by simpa [numKeys, maxKeys] using hfull
    have hleftlen :
        (mk (c.entries.take (d - 1)) (c.children.take d) c.isLeaf).numKeys < maxKeys d := by
      simp only [numKeys, entries_mk, List.length_take, maxKeys]
      omega
    have hrightlen :
        (mk (c.entries.drop d) (c.children.drop d) c.isLeaf).numKeys < maxKeys d := by
      simp only [numKeys, entries_mk, List.length_drop, maxKeys]
      omega
    have hLbound : ∀ x ∈ (mk (c.entries.take (d - 1)) (c.children.take d) c.isLeaf).traverse,
        x.1 < (c.entries[d - 1]).1 := by
      intro x hx
      exact (wf_traverse_bounds h WL x hx).2
    have hRbound : ∀ x ∈ (mk (c.entries.drop d) (c.children.drop d) c.isLeaf).traverse,
        (c.entries[d - 1]).1 < x.1 := by
      intro x hx
      exact (wf_traverse_bounds h WR x hx).1
    by_cases h3 : (c.entries[d - 1]).1 < k
    · right
      rcases ihnode WR hrightlen (lbOK_some.mpr h3) hub with ⟨WR2, htrav2⟩
      refine ⟨c.entries[d - 1], _, _, ?_, hl, hu, WL, WR2, ?_⟩
      · simp only [insertHere, if_pos hfull, dif_pos hm, if_pos h3]
      · rw [htrav2, ← htrav]
        rw [listInsert_append_right k v _ _ (fun x hx => lt_trans (hLbound x hx) h3)]
        simp [listInsert, h3]
    · by_cases h4 : (c.entries[d - 1]).1 = k
      · right
        refine ⟨(k, v), mk (c.entries.take (d - 1)) (c.children.take d) c.isLeaf,
          mk (c.entries.drop d) (c.children.drop d) c.isLeaf, ?_, hlb, hub, ?_, ?_, ?_⟩
        · simp only [insertHere, if_pos hfull, dif_pos hm, if_neg h3, if_pos h4]
        · rw [show ((k, v) : Int × String).1 = k from rfl, ← h4]
          exact WL
        · rw [show ((k, v) : Int × String).1 = k from rfl, ← h4]
          exact WR
        · rw [← htrav]
          rw [listInsert_append_right k v _ _ (fun x hx => h4 ▸ hLbound x hx)]
          have h5 : ¬ (c.entries[d - 1]).1 < k := h3
          simp [listInsert, h5, h4]
      · have hke : k < (c.entries[d - 1]).1 := by omega
        right
        rcases ihnode WL hleftlen hlb (ubOK_some.mpr hke) with ⟨WL2, htrav2⟩
        refine ⟨c.entries[d - 1], _, _, ?_, hl, hu, WL2, WR, ?_⟩
        · simp only [insertHere, if_pos hfull, dif_pos hm, if_neg h3, if_neg h4]
        · rw [htrav2, ← htrav]
          rw [listInsert_append_left k v _ _ ?_]
          · intro x hx
            rcases List.mem_cons.mp hx with h5 | h5
            · rw [h5]; exact hke
            · exact lt_trans hke (hRbound x h5)
  · left
    have hlt : c.numKeys < maxKeys d := lt_of_le_of_ne (wf_numKeys_le w) hfull
    rcases ihnode w hlt hlb hub with ⟨W2, htrav2⟩
    exact ⟨insertNonFull d c k v, by simp [insertHere, hfull], W2, htrav2⟩

/-- Effect of insertNonFull on the child/separator sequence of an internal
node, given the insertion property at the child height. -/
theorem insert_wf_seq (h : Nat) {d : Nat} (hd : 2 ≤ d) {k : Int} {v : String}
    (ihnode : InsP d h k v) {hi : Option Int} (hub : ubOK hi k) :
    ∀ {lo : Option Int} {es : List (Int × String)} {cs : List BTreeNode},
    WFSeq d h lo es cs hi → lbOK lo k →
    (insertNonFull d (mk es cs false) k v).isLeaf = false ∧
    WFSeq d h lo (insertNonFull d (mk es cs false) k v).entries
      (insertNonFull d (mk es cs false) k v).children hi ∧
    es.length ≤ (insertNonFull d (mk es cs false) k v).entries.length ∧
    (insertNonFull d (mk es cs false) k v).entries.length ≤ es.length + 1 ∧
    traverseSeq (insertNonFull d (mk es cs false) k v).children
      (insertNonFull d (mk es cs false) k v).entries = listInsert k v (traverseSeq cs es) := by
  intro lo es cs w
  refine WFSeq.ind
    (P := fun lo es cs => lbOK lo k →
      (insertNonFull d (mk es cs false) k v).isLeaf = false ∧
      WFSeq d h lo (insertNonFull d (mk es cs false) k v).entries
        (insertNonFull d (mk es cs false) k v).children hi ∧
      es.length ≤ (insertNonFull d (mk es cs false) k v).entries.length ∧
      (insertNonFull d (mk es cs false) k v).entries.length ≤ es.length + 1 ∧
      traverseSeq (insertNonFull d (mk es cs false) k v).children
        (insertNonFull d (mk es cs false) k v).entries = listInsert k v (traverseSeq cs es))
    ?_ ?_ w
  · intro lo c hc hlo
    rw [insertNonFull_nil_child]
    rcases insertHere_wf h hd ihnode hc hlo hub with
      ⟨c2, heqA, W2, ht⟩ | ⟨m, n1, n2, heqA, hl, hu, W1, W2, ht⟩
    · rw [heqA]
      simp only [entries_mk, children_mk, isLeaf_mk, List.nil_append, List.append_nil]
      refine ⟨trivial, WFSeq.last h _ _ c2 W2, by simp, by simp, ?_⟩
      rw [traverseSeq_last, traverseSeq_last, ht]
    · rw [heqA]
      simp only [entries_mk, children_mk, isLeaf_mk, List.append_nil, List.cons_append,
        List.nil_append]
      refine ⟨trivial, WFSeq.cons h _ _ m [] n1 [n2] hl hu W1 (WFSeq.last h _ _ n2 W2),
        by simp, by simp, ?_⟩
      rw [traverseSeq_cons, traverseSeq_last, traverseSeq_last, ht]
  · intro lo e es2 c cs2 hlb0 hub0 hc hrest hP hlo
    have hcbound : ∀ x ∈ traverse c, x.1 < (e.1 : Int) := by
      intro x hx
      exact (wf_traverse_bounds h hc x hx).2
    have hrestbound : ∀ x ∈ traverseSeq cs2 es2, e.1 < x.1 := by
      intro x hx
      exact (wfseq_traverse_bounds h hrest x hx).1
    by_cases hek : e.1 < k
    · rw [insertNonFull_cons_lt d e es2 c cs2 k v hek]
      rcases hP (lbOK_some.mpr hek) with ⟨hlf2, W2, hlen1, hlen2, ht2⟩
      simp only [entries_mk, children_mk, isLeaf_mk, List.length_cons]
      refine ⟨trivial, WFSeq.cons h _ _ e _ c _ hlb0 hub0 hc W2, by omega, by omega, ?_⟩
      rw [traverseSeq_cons, traverseSeq_cons, ht2,
        listInsert_append_right k v _ _ (fun x hx => lt_trans (hcbound x hx) hek)]
      simp [listInsert, hek]
    · by_cases heq2 : e.1 = k
      · rw [insertNonFull_head_found d e es2 (c :: cs2) false k v hek heq2]
        simp only [entries_mk, children_mk, isLeaf_mk, List.length_cons]
        have hc2 : WFNode d lo (some k) h c := heq2 ▸ hc
        have hrest2 : WFSeq d h (some k) es2 cs2 hi := heq2 ▸ hrest
        refine ⟨trivial,
          WFSeq.cons h _ _ (k, v) _ c _ (by simpa using hlo) (by simpa using hub) hc2 hrest2,
          by omega, by omega, ?_⟩
        rw [traverseSeq_cons, traverseSeq_cons,
          listInsert_append_right k v _ _ (fun x hx => heq2 ▸ hcbound x hx)]
        have h5 : ¬ e.1 < k := hek
        simp [listInsert, h5, heq2]
      · have hke : k < e.1 := by omega
        rw [insertNonFull_head_child d e es2 c cs2 k v hek heq2]
        rcases insertHere_wf h hd ihnode hc hlo (ubOK_some.mpr hke) with
          ⟨c2, heqA, W2, ht⟩ | ⟨m, n1, n2, heqA, hl, hu, W1, W2, ht⟩
        · rw [heqA]
          simp only [entries_mk, children_mk, isLeaf_mk, List.nil_append, List.cons_append,
            List.length_cons]
          refine ⟨trivial, WFSeq.cons h _ _ e _ c2 _ hlb0 hub0 W2 hrest, by omega, by omega, ?_⟩
          rw [traverseSeq_cons, traverseSeq_cons, ht,
            listInsert_append_left k v _ _ ?_]
          intro x hx
          rcases List.mem_cons.mp hx with h5 | h5
          · rw [h5]; exact hke
          · exact lt_trans hke (hrestbound x h5)
        · rw [heqA]
          simp only [entries_mk, children_mk, isLeaf_mk, List.cons_append, List.nil_append,
            List.length_cons]
          have hmlt : m.1 < e.1 := hu
          refine ⟨trivial,
            WFSeq.cons h _ _ m _ n1 _ hl (ubOK_mono hub0 (le_of_lt hmlt))
              W1 (WFSeq.cons h _ _ e _ n2 _ (lbOK_some.mpr hmlt) hub0 W2 hrest),
            by omega, by omega, ?_⟩
          rw [traverseSeq_cons, traverseSeq_cons, traverseSeq_cons,
            listInsert_append_left k v _ _ ?_, ← ht]
          · simp
          · intro x hx
            rcases List.mem_cons.mp hx with h5 | h5
            · rw [h5]; exact hke
            · exact lt_trans hke (hrestbound x h5)

/-- insertNonFull preserves well-formedness, bounds and height, and acts on
the in-order contents as the sorted overwrite insertion (all heights). -/
theorem insert_wf : ∀ (h : Nat) {d : Nat} (k : Int) (v : String), 2 ≤ d → InsP d h k v := by
  intro h
  induction h with
  | zero =>
    intro d k v hd
    intro lo hi n w hnf hlb hub
    cases w with
    | leaf lo hi es h1 h2 hs =>
      have hres : insertNonFull d (mk es [] true) k v = mk (listInsert k v es) [] true := by
        rw [insertNonFull_leaf, listInsert_eq_slot k v es]
        by_cases hc : (es[slot es k]?).map Prod.fst = some k <;> simp [hc]
      simp only [numKeys, entries_mk] at hnf
      rw [hres]
      have hlen := length_listInsert k v es
      constructor
      · refine WFNode.leaf _ _ _ ?_ ?_ ?_
        · omega
        · omega
        · refine ⟨chain'_keys_listInsert k v es hs.1, ?_⟩
          intro key hkey
          rcases (mem_keys_listInsert k key v es).mp hkey with h3 | h3
          · subst h3; exact ⟨hlb, hub⟩
          · exact hs.2 key h3
      · rw [traverse_leaf, traverse_leaf]
  | succ h ih =>
    intro d k v hd
    intro lo hi n w hnf hlb hub
    cases w with
    | internal lo hi _ es cs h1 h2 hseq =>
      have ihnode : InsP d h k v := ih k v hd
      rcases insert_wf_seq h hd ihnode hub hseq hlb with ⟨hlf, W, hlen1, hlen2, ht⟩
      simp only [numKeys, entries_mk] at hnf
      have hr : insertNonFull d (mk es cs false) k v =
          mk (insertNonFull d (mk es cs false) k v).entries
            (insertNonFull d (mk es cs false) k v).children false := by
        conv_lhs => rw [← eta (insertNonFull d (mk es cs false) k v)]
        rw [hlf]
      constructor
      · rw [hr]
        refine WFNode.internal _ _ _ _ _ ?_ ?_ W
        · omega
        · omega
      · rw [hr, traverse_internal, traverse_internal]
        exact ht

/-- Insertion into a non-full well-formed root preserves root well-formedness
and height and acts as listInsert on the contents. -/
theorem insert_root (h : Nat) {d : Nat} (hd : 2 ≤ d) {r : BTreeNode} {k : Int} {v : String}
    (w : WFRoot d h r) (hnf : r.numKeys < maxKeys d) :
    WFRoot d h (insertNonFull d r k v) ∧
    (insertNonFull d r k v).traverse = listInsert k v r.traverse := by
  cases w with
  | leaf es h2 hs =>
    have hres : insertNonFull d (mk es [] true) k v = mk (listInsert k v es) [] true := by
      rw [insertNonFull_leaf, listInsert_eq_slot k v es]
      by_cases hc : (es[slot es k]?).map Prod.fst = some k <;> simp [hc]
    simp only [numKeys, entries_mk] at hnf
    rw [hres]
    have hlen := length_listInsert k v es
    constructor
    · refine WFRoot.leaf _ ?_ ?_
      · omega
      · refine ⟨chain'_keys_listInsert k v es hs.1, ?_⟩
        intro key hkey
        exact ⟨trivial, trivial⟩
    · rw [traverse_leaf, traverse_leaf]
  | internal h2 es cs hlen hseq =>
    have ihnode : InsP d h2 k v := insert_wf h2 k v hd
    rcases insert_wf_seq h2 hd ihnode (ubOK_none k) hseq (lbOK_none k) with
      ⟨hlf, W, hlen1, hlen2, ht⟩
    simp only [numKeys, entries_mk] at hnf
    have hr : insertNonFull d (mk es cs false) k v =
        mk (insertNonFull d (mk es cs false) k v).entries
          (insertNonFull d (mk es cs false) k v).children false := by
      conv_lhs => rw [← eta (insertNonFull d (mk es cs false) k v)]
      rw [hlf]
    constructor
    · rw [hr]
      refine WFRoot.internal _ _ _ ?_ W
      omega
    · rw [hr, traverse_internal, traverse_internal]
      exact ht

/-- A full root satisfies the non-root size bounds, hence is a well-formed
subtree. -/
theorem wfroot_full_to_node {d h : Nat} {r : BTreeNode} (w : WFRoot d h r)
    (hfull : r.numKeys = maxKeys d) : WFNode d none none h r := by
  cases w with
  | leaf es h2 hs =>
    simp only [numKeys, entries_mk, maxKeys] at hfull
    exact WFNode.leaf _ _ _ (by omega) h2 hs
  | internal h2 es cs hlen hseq =>
    simp only [numKeys, entries_mk, maxKeys] at hfull
    exact WFNode.internal _ _ _ _ _ (by omega) hlen hseq

/-- The root growth step: splitChild(0, oldRoot) on a fresh empty root holding
the old (full) root as its sole child. -/
theorem splitChild_root {d : Nat} {r : BTreeNode} {med : Int × String}
    (hmed : r.entries[d - 1]? = some med) :
    splitChild d (mk [] [r] false) 0 =
      mk [med] [mk (r.entries.take (d - 1)) (r.children.take d) r.isLeaf,
        mk (r.entries.drop d) (r.children.drop d) r.isLeaf] false := by
  have hm : d - 1 < r.entries.length := by
    by_contra hcon
    rw [List.getElem?_eq_none (by omega)] at hmed
    cases hmed
  have heq : r.entries[d - 1] = med := by
    rw [List.getElem?_eq_getElem hm] at hmed
    injection hmed
  rw [splitChild.eq_def]
  simp [hm, heq]
  rfl

/-- After the root growth split, the new root is well formed at height h + 1,
holds exactly one entry (the promoted median) and two children (the two halves
of the old root), is not full, and has the same in-order contents. -/
theorem grow_root_wf (h : Nat) {d : Nat} (hd : 2 ≤ d) {r : BTreeNode}
    (w : WFRoot d h r) (hfull : r.numKeys = maxKeys d) :
    WFRoot d (h + 1) (splitChild d (mk [] [r] false) 0) ∧
    (splitChild d (mk [] [r] false) 0).numKeys = 1 ∧
    (splitChild d (mk [] [r] false) 0).traverse = r.traverse := by
  have wn : WFNode d none none h r := wfroot_full_to_node w hfull
  have hm : d - 1 < r.entries.length := by
    have h5 : r.entries.length = 2 * d - 1 := by simpa [numKeys, maxKeys] using hfull
    omega
  have hmed : r.entries[d - 1]? = some (r.entries[d - 1]) := List.getElem?_eq_getElem hm
  rcases wf_split h hd wn hfull hmed with ⟨WL, WR, hl, hu, htrav⟩
  rw [splitChild_root hmed]
  refine ⟨?_, rfl, ?_⟩
  · refine WFRoot.internal _ _ _ ?_ ?_
    · simp [maxKeys]
      omega
    · exact WFSeq.cons h _ _ _ [] _ [_] trivial trivial WL (WFSeq.last h _ _ _ WR)
  · rw [traverse_internal, traverseSeq_cons, traverseSeq_last]
    exact htrav

/-- Structural induction over a node and all its descendants. -/
theorem nodeInd (P : BTreeNode → Prop)
    (step : ∀ (es : List (Int × String)) (cs : List BTreeNode) (lf : Bool),
      (∀ c ∈ cs, P c) → P (mk es cs lf)) : ∀ n, P n := by
  have H : ∀ (N : Nat) (n : BTreeNode), sizeOf n ≤ N → P n := by
    intro N
    induction N with
    | zero =>
      intro n hn
      cases n with
      | mk es cs lf =>
        rw [sizeOf_mk] at hn
        omega
    | succ N ih =>
      intro n hn
      cases n with
      | mk es cs lf =>
        refine step es cs lf ?_
        intro c hc
        have := List.sizeOf_lt_of_mem hc
        rw [sizeOf_mk] at hn
        exact ih c (by omega)
  intro n
  exact H (sizeOf n) n le_rfl

theorem slot_le_length (es : List (Int × String)) (k : Int) : slot es k ≤ es.length := by
  induction es with
  | nil => simp [slot_nil]
  | cons e es2 ih =>
    rw [slot_cons]
    by_cases h : e.1 < k <;> simp [h]
    omega

theorem slot_lt_of_getElem (es : List (Int × String)) (k : Int) :
    ∀ (j : Nat), j < slot es k → ∃ e, es[j]? = some e ∧ e.1 < k := by
  induction es with
  | nil => simp [slot_nil]
  | cons e es2 ih =>
    intro j hj
    rw [slot_cons] at hj
    by_cases h : e.1 < k
    · rw [if_pos h] at hj
      cases j with
      | zero => exact ⟨e, by simp, h⟩
      | succ j2 =>
        rcases ih j2 (by omega) with ⟨e2, he2, hlt⟩
        exact ⟨e2, by simpa using he2, hlt⟩
    · rw [if_neg h] at hj
      omega

theorem slot_getElem_ge (es : List (Int × String)) (k : Int) :
    ∀ e, es[slot es k]? = some e → ¬ e.1 < k := by
  induction es with
  | nil => simp [slot_nil]
  | cons e2 es2 ih =>
    intro e he
    rw [slot_cons] at he
    by_cases h : e2.1 < k
    · rw [if_pos h] at he
      rw [List.getElem?_cons_succ] at he
      exact ih e he
    · rw [if_neg h] at he
      rw [List.getElem?_cons_zero] at he
      have : e2 = e := by injection he
      rw [← this]
      exact h

/-- On a list with strictly increasing keys, first-match lookup is decided at
the slot position. -/
theorem lookupSorted_slot (k : Int) (es : List (Int × String))
    (hs : (es.map Prod.fst).Chain' (· < ·)) :
    lookupSorted k es =
      match es[slot es k]? with
      | some e => if e.1 = k then some e.2 else none
      | none => none := by
  induction es with
  | nil => simp [lookupSorted, slot_nil]
  | cons e es2 ih =>
    simp only [List.map_cons, List.chain'_cons'] at hs
    by_cases h1 : e.1 < k
    · have hne : ¬ e.1 = k := by omega
      simp only [lookupSorted, hne, ite_false, if_neg, slot_cons, if_pos h1,
        List.getElem?_cons_succ]
      exact ih hs.2
    · rw [slot_cons, if_neg h1]
      simp only [List.getElem?_cons_zero, lookupSorted]
      by_cases h2 : e.1 = k
      · simp [h2]
      · simp only [h2, ite_false, if_neg, Bool.false_eq_true]
        have hpw : (es2.map Prod.fst).Pairwise (· < ·) := List.chain'_iff_pairwise.mp hs.2
        refine lookupSorted_eq_none k es2 ?_
        intro x hx
        have hx2 : e.1 < x.1 := by
          rcases es2 with _ | ⟨e2, es3⟩
          · cases hx
          · rcases List.mem_cons.mp hx with h3 | h3
            · have := hs.1 e2.1 (by simp)
              rw [h3]
              exact this
            · have h4 := hs.1 e2.1 (by simp)
              have h5 : (e2.1 : Int) < x.1 := by
                have hpw2 := List.chain'_iff_pairwise.mp hs.2
                simp only [List.map_cons, List.pairwise_cons] at hpw2
                exact hpw2.1 x.1 (List.mem_map_of_mem Prod.fst h3)
              omega
        omega

/-- The value delivered by a node-level search: the value stored at the
returned (node, index) pair, none on a miss.  BTree.searchValue is this
function applied at the root. -/
def searchVal (n : BTreeNode) (k : Int) : Option String :=
  match n.search k with
  | some (m, i) => (m.entries[i]?).map Prod.snd
  | none => none

/-- A successful search always points at an exact key match. -/
theorem search_found_key :
    ∀ (n : BTreeNode) (k : Int) (m : BTreeNode) (i : Nat),
    n.search k = some (m, i) → (m.entries[i]?).map Prod.fst = some k := by
  intro n
  induction n using nodeInd with
  | step es cs lf ihc =>
    intro k m i hres
    cases lf with
    | true =>
      rw [search_leaf] at hres
      by_cases hf : (es[slot es k]?).map Prod.fst = some k
      · rw [if_pos hf] at hres
        injection hres with h1
        injection h1 with h2 h3
        rw [← h2, ← h3]
        simpa using hf
      · rw [if_neg hf] at hres
        cases hres
    | false =>
      rw [search_internal] at hres
      by_cases hf : (es[slot es k]?).map Prod.fst = some k
      · rw [if_pos hf] at hres
        injection hres with h1
        injection h1 with h2 h3
        rw [← h2, ← h3]
        simpa using hf
      · rw [if_neg hf] at hres
        by_cases hin : slot es k < cs.length
        · rw [dif_pos hin] at hres
          exact ihc cs[slot es k] (cs.getElem_mem hin) k m i hres
        · rw [dif_neg hin] at hres
          cases hres

theorem searchVal_leaf (es : List (Int × String)) (cs : List BTreeNode) (k : Int) :
    searchVal (mk es cs true) k =
      match es[slot es k]? with
      | some e => if e.1 = k then some e.2 else none
      | none => none := by
  rw [searchVal, search_leaf]
  by_cases hf : (es[slot es k]?).map Prod.fst = some k
  · rcases hm : es[slot es k]? with _ | e
    · rw [hm] at hf; cases hf
    · rw [hm] at hf
      have he : e.1 = k := by simpa using hf
      simp [hf, hm, he, entries_mk]
  · rw [if_neg hf]
    rcases hm : es[slot es k]? with _ | e
    · simp
    · rw [hm] at hf
      have he : ¬ e.1 = k := by simpa using hf
      simp [he]

theorem searchVal_internal_found (es : List (Int × String)) (cs : List BTreeNode) (k : Int)
    (hf : (es[slot es k]?).map Prod.fst = some k) :
    searchVal (mk es cs false) k = (es[slot es k]?).map Prod.snd := by
  rw [searchVal, search_internal, if_pos hf]
  simp [entries_mk]

theorem searchVal_internal_miss (es : List (Int × String)) (cs : List BTreeNode) (k : Int)
    (hf : ¬ (es[slot es k]?).map Prod.fst = some k) (hin : slot es k < cs.length) :
    searchVal (mk es cs false) k = searchVal cs[slot es k] k := by
  rw [searchVal, search_internal, if_neg hf, dif_pos hin, searchVal]

theorem searchVal_cons_lt (e : Int × String) (es : List (Int × String)) (c : BTreeNode)
    (cs : List BTreeNode) (k : Int) (hek : e.1 < k) :
    searchVal (mk (e :: es) (c :: cs) false) k = searchVal (mk es cs false) k := by
  by_cases hf : (es[slot es k]?).map Prod.fst = some k
  · have hf2 : ((e :: es)[slot (e :: es) k]?).map Prod.fst = some k := by
      rw [slot_cons, if_pos hek, List.getElem?_cons_succ]
      exact hf
    rw [searchVal_internal_found _ _ _ hf2, searchVal_internal_found _ _ _ hf]
    rw [slot_cons, if_pos hek, List.getElem?_cons_succ]
  · have hf2 : ¬ ((e :: es)[slot (e :: es) k]?).map Prod.fst = some k := by
      rw [slot_cons, if_pos hek, List.getElem?_cons_succ]
      exact hf
    by_cases hin : slot es k < cs.length
    · have hin2 : slot (e :: es) k < (c :: cs).length := by
        rw [slot_cons, if_pos hek]
        simpa using Nat.succ_lt_succ hin
      rw [searchVal_internal_miss _ _ _ hf2 hin2, searchVal_internal_miss _ _ _ hf hin]
      congr 1
      simp only [slot_cons, if_pos hek, List.getElem_cons_succ]
    · have hin2 : ¬ slot (e :: es) k < (c :: cs).length := by
        rw [slot_cons, if_pos hek]
        simp only [List.length_cons]
        omega
      rw [searchVal, search_internal, if_neg hf2, dif_neg hin2,
        searchVal, search_internal, if_neg hf, dif_neg hin]

theorem searchVal_head_found (e : Int × String) (es : List (Int × String))
    (cs : List BTreeNode) (k : Int) (h2 : e.1 = k) :
    searchVal (mk (e :: es) cs false) k = some e.2 := by
  have h1 : ¬ e.1 < k := by omega
  have hf : (((e :: es))[slot (e :: es) k]?).map Prod.fst = some k := by
    rw [slot_cons, if_neg h1, List.getElem?_cons_zero]
    simpa using h2
  rw [searchVal_internal_found _ _ _ hf, slot_cons, if_neg h1, List.getElem?_cons_zero]
  rfl

theorem searchVal_head_child (e : Int × String) (es : List (Int × String)) (c : BTreeNode)
    (cs : List BTreeNode) (k : Int) (h1 : ¬ e.1 < k) (h2 : ¬ e.1 = k) :
    searchVal (mk (e :: es) (c :: cs) false) k = searchVal c k := by
  have hf : ¬ ((e :: es)[slot (e :: es) k]?).map Prod.fst = some k := by
    rw [slot_cons, if_neg h1, List.getElem?_cons_zero]
    simpa using h2
  have hin : slot (e :: es) k < (c :: cs).length := by
    rw [slot_cons, if_neg h1]
    simp
  rw [searchVal_internal_miss _ _ _ hf hin]
  congr 1
  simp only [slot_cons, if_neg h1, List.getElem_cons_zero]

theorem searchVal_nil_child (c : BTreeNode) (cs : List BTreeNode) (k : Int) :
    searchVal (mk [] (c :: cs) false) k = searchVal c k := by
  have hf : ¬ (([] : List (Int × String))[slot [] k]?).map Prod.fst = some k := by
    simp [slot_nil]
  have hin : slot ([] : List (Int × String)) k < (c :: cs).length := by
    simp [slot_nil]
  rw [searchVal_internal_miss _ _ _ hf hin]
  congr 1

/-- Seq-level search/lookup agreement, given the node-level agreement at the
child height. -/
theorem searchVal_seq (h : Nat) {d : Nat} {hi : Option Int} (k : Int)
    (ihnode : ∀ {lo hi : Option Int} {n : BTreeNode}, WFNode d lo hi h n →
      searchVal n k = lookupSorted k n.traverse) :
    ∀ {lo : Option Int} {es : List (Int × String)} {cs : List BTreeNode},
    WFSeq d h lo es cs hi →
    searchVal (mk es cs false) k = lookupSorted k (traverseSeq cs es) := by
  intro lo es cs w
  refine WFSeq.ind
    (P := fun lo es cs =>
      searchVal (mk es cs false) k = lookupSorted k (traverseSeq cs es)) ?_ ?_ w
  · intro lo c hc
    rw [searchVal_nil_child, traverseSeq_last]
    exact ihnode hc
  · intro lo e es2 c cs2 hlb hub hc hrest hP
    have hcb : ∀ x ∈ traverse c, x.1 < e.1 := fun x hx => (wf_traverse_bounds h hc x hx).2
    have hrb : ∀ x ∈ traverseSeq cs2 es2, e.1 < x.1 :=
      fun x hx => (wfseq_traverse_bounds h hrest x hx).1
    rw [traverseSeq_cons]
    by_cases hek : e.1 < k
    · rw [searchVal_cons_lt _ _ _ _ _ hek, hP, lookupSorted_append]
      have hnone : lookupSorted k (traverse c) = none :=
        lookupSorted_eq_none _ _ (fun x hx => by have := hcb x hx; omega)
      rw [hnone]
      have hne : ¬ e.1 = k := by omega
      simp [lookupSorted, hne]
    · by_cases heq2 : e.1 = k
      · rw [searchVal_head_found _ _ _ _ heq2, lookupSorted_append]
        have hnone : lookupSorted k (traverse c) = none :=
          lookupSorted_eq_none _ _ (fun x hx => by have := hcb x hx; omega)
        rw [hnone]
        simp [lookupSorted, heq2]
      · rw [searchVal_head_child _ _ _ _ _ hek heq2, ihnode hc, lookupSorted_append]
        rcases hl : lookupSorted k (traverse c) with _ | v0
        · have hnone2 : lookupSorted k (e :: traverseSeq cs2 es2) = none := by
            refine lookupSorted_eq_none _ _ ?_
            intro x hx
            rcases List.mem_cons.mp hx with h3 | h3
            · rw [h3]; exact heq2
            · have h4 := hrb x h3
              intro h5
              omega
          rw [hnone2]
        · rfl

/-- Search at a well-formed subtree returns exactly the value that first-match
lookup finds in the in-order contents. -/
theorem searchVal_spec : ∀ (h : Nat) {d : Nat} {lo hi : Option Int} {n : BTreeNode},
    WFNode d lo hi h n → ∀ (k : Int), searchVal n k = lookupSorted k n.traverse := by
  intro h
  induction h with
  | zero =>
    intro d lo hi n w k
    cases w with
    | leaf lo hi es h1 h2 hs =>
      rw [searchVal_leaf, traverse_leaf, lookupSorted_slot k es hs.1]
  | succ h ih =>
    intro d lo hi n w k
    cases w with
    | internal lo hi _ es cs h1 h2 hseq =>
      rw [traverse_internal]
      exact searchVal_seq h k (fun w2 => ih w2 k) hseq

/-- Root version of searchVal_spec. -/
theorem searchVal_root (h : Nat) {d : Nat} {r : BTreeNode} (w : WFRoot d h r) (k : Int) :
    searchVal r k = lookupSorted k r.traverse := by
  cases w with
  | leaf es h2 hs =>
    rw [searchVal_leaf, traverse_leaf, lookupSorted_slot k es hs.1]
  | internal h2 es cs hlen hseq =>
    rw [traverse_internal]
    exact searchVal_seq h2 k (fun w2 => searchVal_spec h2 w2 k) hseq

theorem wfroot_numKeys_le {d h : Nat} {r : BTreeNode} (w : WFRoot d h r) :
    r.numKeys ≤ maxKeys d := by
  cases w with
  | leaf es h2 _ => simpa [numKeys] using h2
  | internal _ es cs h2 _ => simpa [numKeys] using h2

theorem wfroot_height {d h : Nat} {r : BTreeNode} (w : WFRoot d h r) : r.height = h := by
  cases w with
  | leaf es _ _ => exact height_nil es true
  | internal h2 es cs _ hseq =>
    cases hseq with
    | last _ _ _ c hc => rw [height_cons, wf_height h2 hc]
    | cons _ _ _ e es2 c cs2 _ _ hc _ => rw [height_cons, wf_height h2 hc]

end BTreeNode

open BTreeNode

/-- A well-formed tree handle: valid degree and a well-formed root of height h. -/
def BTree.WF (t : BTree) (h : Nat) : Prop :=
  2 ≤ t.degree ∧ WFRoot t.degree h t.root

/-- Tree-level insertion (root growth protocol plus insertNonFull) preserves
well-formedness; the height grows by one exactly when the root was full, and
the contents transform as the sorted overwrite insertion. -/
theorem tree_insert_wf {t : BTree} {h : Nat} {k : Int} {v : String} (w : t.WF h) :
    (t.insert k v).WF (if t.root.numKeys = maxKeys t.degree then h + 1 else h) ∧
    (t.insert k v).traverse = listInsert k v t.traverse := by
  rcases w with ⟨hd, wr⟩
  by_cases hfull : t.root.numKeys = maxKeys t.degree
  · rw [if_pos hfull]
    rcases grow_root_wf h hd wr hfull with ⟨W1, hnum, ht1⟩
    have hnf : (splitChild t.degree (BTreeNode.mk [] [t.root] false) 0).numKeys <
        maxKeys t.degree := by
      rw [hnum]
      simp only [maxKeys]
      omega
    rcases insert_root (h + 1) hd W1 hnf with ⟨W2, ht2⟩
    constructor
    · simp only [BTree.WF, BTree.insert, if_pos hfull]
      exact ⟨hd, W2⟩
    · simp only [BTree.insert, if_pos hfull, BTree.traverse]
      rw [ht2, ht1]
  · rw [if_neg hfull]
    have hnf : t.root.numKeys < maxKeys t.degree :=
      lt_of_le_of_ne (wfroot_numKeys_le wr) hfull
    rcases insert_root h hd wr hnf with ⟨W2, ht2⟩
    constructor
    · simp only [BTree.WF, BTree.insert, if_neg hfull]
      exact ⟨hd, W2⟩
    · simp only [BTree.insert, if_neg hfull, BTree.traverse]
      exact ht2

theorem emptyTree_wf (d : Nat) (hd : 2 ≤ d) : (emptyTree d).WF 0 := by
  refine ⟨hd, ?_⟩
  refine WFRoot.leaf [] (by simp) ?_
  exact ⟨by simp, by simp⟩

/-- Every tree built by a sequence of insertions is well formed, and its
in-order contents are the sorted association list of the insertions. -/
theorem buildTree_wf (d : Nat) (hd : 2 ≤ d) (ops : List (Int × String)) :
    ∃ h, (buildTree d ops).WF h ∧ (buildTree d ops).traverse = applyOps ops := by
  have H : ∀ (ops2 : List (Int × String)) (t : BTree) (h : Nat) (acc : List (Int × String)),
      t.WF h → t.traverse = acc →
      ∃ h2, (ops2.foldl (fun t e => t.insert e.1 e.2) t).WF h2 ∧
        (ops2.foldl (fun t e => t.insert e.1 e.2) t).traverse =
          ops2.foldl (fun acc e => listInsert e.1 e.2 acc) acc := by
    intro ops2
    induction ops2 with
    | nil =>
      intro t h acc w hacc
      exact ⟨h, w, hacc⟩
    | cons e ops3 ih =>
      intro t h acc w hacc
      rcases tree_insert_wf (k := e.1) (v := e.2) w with ⟨W2, ht2⟩
      exact ih _ _ _ W2 (by rw [ht2, hacc])
  have hempty : (emptyTree d).traverse = [] := by
    simp only [emptyTree, BTree.traverse]
    exact traverse_leaf [] []
  exact H ops (emptyTree d) 0 [] (emptyTree_wf d hd) hempty

/-! ## Fold lemmas for the reference association-list model -/

theorem applyOps_chain (ops : List (Int × String)) :
    ((applyOps ops).map Prod.fst).Chain' (· < ·) := by
  have H : ∀ (ops2 : List (Int × String)) (acc : List (Int × String)),
      (acc.map Prod.fst).Chain' (· < ·) →
      ((ops2.foldl (fun acc e => listInsert e.1 e.2 acc) acc).map Prod.fst).Chain' (· < ·) := by
    intro ops2
    induction ops2 with
    | nil => intro acc hacc; exact hacc
    | cons e ops3 ih =>
      intro acc hacc
      exact ih _ (chain'_keys_listInsert e.1 e.2 acc hacc)
  exact H ops [] (by simp)

theorem applyOps_mem (ops : List (Int × String)) (key : Int) :
    key ∈ (applyOps ops).map Prod.fst ↔ key ∈ ops.map Prod.fst := by
  have H : ∀ (ops2 : List (Int × String)) (acc : List (Int × String)),
      key ∈ (ops2.foldl (fun acc e => listInsert e.1 e.2 acc) acc).map Prod.fst ↔
        key ∈ ops2.map Prod.fst ∨ key ∈ acc.map Prod.fst := by
    intro ops2
    induction ops2 with
    | nil => intro acc; simp
    | cons e ops3 ih =>
      intro acc
      rw [List.foldl_cons, ih]
      rw [mem_keys_listInsert]
      simp only [List.map_cons, List.mem_cons]
      tauto
  rw [applyOps, H]
  simp

theorem lookup_foldl_not_mem (ops : List (Int × String)) (acc : List (Int × String))
    (key : Int) (hk : key ∉ ops.map Prod.fst) :
    lookupSorted key (ops.foldl (fun acc e => listInsert e.1 e.2 acc) acc) =
      lookupSorted key acc := by
  induction ops generalizing acc with
  | nil => rfl
  | cons e ops2 ih =>
    simp only [List.map_cons, List.mem_cons] at hk
    push_neg at hk
    rw [List.foldl_cons, ih _ hk.2, lookupSorted_listInsert_ne e.1 key e.2 acc hk.1]

theorem lookup_applyOps_mem (ops : List (Int × String)) (e : Int × String)
    (hmem : e ∈ ops) (hnd : (ops.map Prod.fst).Nodup) :
    lookupSorted e.1 (applyOps ops) = some e.2 := by
  rcases List.append_of_mem hmem with ⟨l1, l2, rfl⟩
  have hk2 : e.1 ∉ l2.map Prod.fst := by
    have := hnd
    simp only [List.map_append, List.map_cons, List.nodup_append] at this
    rcases this with ⟨_, hnd2, _⟩
    simp only [List.nodup_cons] at hnd2
    exact hnd2.1
  rw [applyOps, List.foldl_append, List.foldl_cons]
  rw [lookup_foldl_not_mem l2 _ e.1 hk2]
  exact lookupSorted_listInsert_self e.1 e.2 _

theorem lookup_applyOps_not_mem (ops : List (Int × String)) (key : Int)
    (hk : key ∉ ops.map Prod.fst) : lookupSorted key (applyOps ops) = none := by
  rw [applyOps, lookup_foldl_not_mem ops [] key hk]
  rfl

/-! ## The invariants exactly as the spec states them (section 3, items 1-4) -/

/-- Invariants 1-3 of spec section 3, stated directly on the node structure:
(1) each internal node has len(children) = len(keys) + 1 (and a leaf owns no
children); (2) size bounds, lower bound waived at the root; (3) keys strictly
increasing, and all keys of children[i] strictly between the neighbouring
separators (below every separator from index i on, above every separator
before i).  The condition recurses over all descendants. -/
def goodNode (d : Nat) : Bool → BTreeNode → Prop
  | isRoot, .mk es cs lf =>
    (lf = false → cs.length = es.length + 1) ∧
    (lf = true → cs = []) ∧
    (isRoot = false → d - 1 ≤ es.length) ∧
    es.length ≤ maxKeys d ∧
    ((es.map Prod.fst).Chain' (· < ·)) ∧
    (∀ (i : Nat) (c : BTreeNode), cs[i]? = some c →
      ∀ x ∈ (BTreeNode.traverse c).map Prod.fst,
        (∀ e ∈ (es.map Prod.fst).take i, e < x) ∧
        (∀ e ∈ (es.map Prod.fst).drop i, x < e)) ∧
    (∀ c ∈ cs, goodNode d false c)
  termination_by _ n => sizeOf n
  decreasing_by
    have := List.sizeOf_lt_of_mem (by assumption : c ∈ cs)
    simp only [BTreeNode.sizeOf_mk]
    omega

mutual

/-- The depth of every leaf below this node (invariant 4: all equal). -/
def leafDepths : BTreeNode → List Nat
  | .mk _ cs lf => if lf then [0] else leafDepthsSeq cs
  termination_by n => sizeOf n
  decreasing_by
    simp only [BTreeNode.sizeOf_mk]
    omega

def leafDepthsSeq : List BTreeNode → List Nat
  | [] => []
  | c :: cs => (leafDepths c).map (· + 1) ++ leafDepthsSeq cs
  termination_by cs => sizeOf cs
  decreasing_by
    · simp only [List.cons.sizeOf_spec]
      omega
    · simp only [List.cons.sizeOf_spec]
      omega

end

theorem leafDepths_leaf (es : List (Int × String)) (cs : List BTreeNode) :
    leafDepths (BTreeNode.mk es cs true) = [0] := by
  rw [leafDepths.eq_def]
  simp

theorem leafDepths_internal (es : List (Int × String)) (cs : List BTreeNode) :
    leafDepths (BTreeNode.mk es cs false) = leafDepthsSeq cs := by
  rw [leafDepths.eq_def]
  simp

theorem leafDepthsSeq_nil : leafDepthsSeq [] = [] := by
  rw [leafDepthsSeq.eq_def]

theorem leafDepthsSeq_cons (c : BTreeNode) (cs : List BTreeNode) :
    leafDepthsSeq (c :: cs) = (leafDepths c).map (· + 1) ++ leafDepthsSeq cs := by
  rw [leafDepthsSeq.eq_def]

theorem wfseq_sorted {d h : Nat} {hi : Option Int} :
    ∀ {lo : Option Int} {es : List (Int × String)} {cs : List BTreeNode},
    WFSeq d h lo es cs hi → sortedIn lo hi (es.map Prod.fst) := by
  intro lo es cs w
  refine WFSeq.ind (P := fun lo es cs => sortedIn lo hi (es.map Prod.fst)) ?_ ?_ w
  · intro lo c _
    exact ⟨by simp, by simp⟩
  · intro lo e es2 c cs2 hlb hub hc hrest hP
    refine ⟨?_, ?_⟩
    · rw [List.map_cons, List.chain'_cons']
      refine ⟨?_, hP.1⟩
      intro y hy
      have hmem : y ∈ es2.map Prod.fst := List.mem_of_mem_head? hy
      exact (hP.2 y hmem).1
    · intro x hx
      rcases List.mem_cons.mp hx with h1 | h1
      · rw [h1]; exact ⟨hlb, hub⟩
      · rcases hP.2 x h1 with ⟨ha, hb⟩
        exact ⟨lbOK_mono hlb (le_of_lt ha), hb⟩

theorem traverseSeq_mem_child :
    ∀ (i : Nat) (cs : List BTreeNode) (es : List (Int × String)) (c : BTreeNode)
    (x : Int × String), cs.length = es.length + 1 → cs[i]? = some c →
    x ∈ BTreeNode.traverse c → x ∈ traverseSeq cs es := by
  intro i
  induction i with
  | zero =>
    intro cs es c x hlen hc hx
    cases cs with
    | nil => cases hc
    | cons c0 cs2 =>
      have : c0 = c := by simpa using hc
      subst this
      cases es with
      | nil => rw [traverseSeq_last]; exact hx
      | cons e es2 =>
        rw [traverseSeq_cons]
        exact List.mem_append_left _ hx
  | succ i ih =>
    intro cs es c x hlen hc hx
    cases cs with
    | nil => cases hc
    | cons c0 cs2 =>
      cases es with
      | nil =>
        have hnil : cs2 = [] := by simpa using hlen
        subst hnil
        simp at hc
      | cons e es2 =>
        rw [traverseSeq_cons]
        refine List.mem_append_right _ ?_
        refine List.mem_cons_of_mem e ?_
        exact ih cs2 es2 c x (by simpa using hlen) (by simpa using hc) hx

theorem wfseq_child_bounds {d h : Nat} {hi : Option Int} :
    ∀ {lo : Option Int} {es : List (Int × String)} {cs : List BTreeNode},
    WFSeq d h lo es cs hi →
    ∀ (i : Nat) (c : BTreeNode), cs[i]? = some c →
    ∀ x ∈ (BTreeNode.traverse c).map Prod.fst,
      (∀ e ∈ (es.map Prod.fst).take i, e < x) ∧ (∀ e ∈ (es.map Prod.fst).drop i, x < e) := by
  intro lo es cs w
  refine WFSeq.ind
    (P := fun lo es cs => ∀ (i : Nat) (c : BTreeNode), cs[i]? = some c →
      ∀ x ∈ (BTreeNode.traverse c).map Prod.fst,
        (∀ e ∈ (es.map Prod.fst).take i, e < x) ∧
        (∀ e ∈ (es.map Prod.fst).drop i, x < e)) ?_ ?_ w
  · intro lo c hc i c2 hc2 x hx
    cases i with
    | zero =>
      simp only [List.map_nil, List.take_nil, List.drop_nil]
      exact ⟨by simp, by simp⟩
    | succ i2 => simp at hc2
  · intro lo e es2 c cs2 hlb hub hc hrest hP i c2 hc2 x hx
    rcases List.mem_map.mp hx with ⟨xe, hxe, hxeq⟩
    cases i with
    | zero =>
      have : c = c2 := by simpa using hc2
      subst this
      have hxub : xe.1 < e.1 := (wf_traverse_bounds h hc xe hxe).2
      have hsorted := wfseq_sorted hrest
      refine ⟨by simp, ?_⟩
      intro e2 he2
      simp only [List.map_cons, List.drop_zero] at he2
      rcases List.mem_cons.mp he2 with h1 | h1
      · rw [h1, ← hxeq]; exact hxub
      · have h6 : e.1 < e2 := (hsorted.2 e2 h1).1
        rw [← hxeq]
        exact lt_trans hxub h6
    | succ i2 =>
      have hc2b : cs2[i2]? = some c2 := by simpa using hc2
      rcases hP i2 c2 hc2b x hx with ⟨hta, htd⟩
      have hxin : (xe ∈ traverseSeq cs2 es2) :=
        traverseSeq_mem_child i2 cs2 es2 c2 xe hrest.length hc2b hxe
      have hxlb : e.1 < xe.1 := (wfseq_traverse_bounds h hrest xe hxin).1
      constructor
      · intro e2 he2
        simp only [List.map_cons, List.take_succ_cons] at he2
        rcases List.mem_cons.mp he2 with h1 | h1
        · rw [h1, ← hxeq]; exact hxlb
        · exact hta e2 h1
      · intro e2 he2
        simp only [List.map_cons, List.drop_succ_cons] at he2
        exact htd e2 he2

theorem wfseq_mem_child {d h : Nat} {hi : Option Int} :
    ∀ {lo : Option Int} {es : List (Int × String)} {cs : List BTreeNode},
    WFSeq d h lo es cs hi → ∀ c ∈ cs, ∃ lo2 hi2, WFNode d lo2 hi2 h c := by
  intro lo es cs w
  refine WFSeq.ind
    (P := fun lo es cs => ∀ c ∈ cs, ∃ lo2 hi2, WFNode d lo2 hi2 h c) ?_ ?_ w
  · intro lo c hc c2 hc2
    have : c2 = c := by simpa using hc2
    subst this
    exact ⟨lo, hi, hc⟩
  · intro lo e es2 c cs2 _ _ hc hrest hP c2 hc2
    rcases List.mem_cons.mp hc2 with h1 | h1
    · subst h1
      exact ⟨lo, some e.1, hc⟩
    · exact hP c2 h1

theorem goodNode_mk (d : Nat) (isRoot : Bool) (es : List (Int × String))
    (cs : List BTreeNode) (lf : Bool) :
    goodNode d isRoot (BTreeNode.mk es cs lf) =
      ((lf = false → cs.length = es.length + 1) ∧
      (lf = true → cs = []) ∧
      (isRoot = false → d - 1 ≤ es.length) ∧
      es.length ≤ maxKeys d ∧
      ((es.map Prod.fst).Chain' (· < ·)) ∧
      (∀ (i : Nat) (c : BTreeNode), cs[i]? = some c →
        ∀ x ∈ (BTreeNode.traverse c).map Prod.fst,
          (∀ e ∈ (es.map Prod.fst).take i, e < x) ∧
          (∀ e ∈ (es.map Prod.fst).drop i, x < e)) ∧
      (∀ c ∈ cs, goodNode d false c)) := by
  rw [goodNode.eq_def]

/-- A well-formed subtree satisfies the spec-shaped invariants 1-3 at every
node. -/
theorem wf_to_good : ∀ (h : Nat) {d : Nat} {lo hi : Option Int} {n : BTreeNode},
    WFNode d lo hi h n → goodNode d false n := by
  intro h
  induction h with
  | zero =>
    intro d lo hi n w
    cases w with
    | leaf lo hi es h1 h2 hs =>
      rw [goodNode_mk]
      refine ⟨by simp, fun _ => rfl, fun _ => h1, h2, hs.1, ?_, by simp⟩
      intro i c hc
      simp at hc
  | succ h ih =>
    intro d lo hi n w
    cases w with
    | internal lo hi _ es cs h1 h2 hseq =>
      rw [goodNode_mk]
      refine ⟨fun _ => hseq.length, by simp, fun _ => h1, h2, (wfseq_sorted hseq).1,
        wfseq_child_bounds hseq, ?_⟩
      intro c hc
      rcases wfseq_mem_child hseq c hc with ⟨lo2, hi2, hc2⟩
      exact ih hc2

/-- A well-formed root satisfies the spec-shaped invariants 1-3 at every node,
with the lower size bound waived at the root itself. -/
theorem wfroot_to_good {d h : Nat} {r : BTreeNode} (w : WFRoot d h r) :
    goodNode d true r := by
  cases w with
  | leaf es h2 hs =>
    rw [goodNode_mk]
    refine ⟨by simp, fun _ => rfl, by simp, h2, hs.1, ?_, by simp⟩
    intro i c hc
    simp at hc
  | internal h2 es cs hlen hseq =>
    rw [goodNode_mk]
    refine ⟨fun _ => hseq.length, by simp, by simp, hlen, (wfseq_sorted hseq).1,
      wfseq_child_bounds hseq, ?_⟩
    intro c hc
    rcases wfseq_mem_child hseq c hc with ⟨lo2, hi2, hc2⟩
    exact wf_to_good h2 hc2

theorem wfseq_leafDepths (h : Nat) {d : Nat} {hi : Option Int}
    (ihnode : ∀ {lo hi : Option Int} {n : BTreeNode}, WFNode d lo hi h n →
      ∀ a ∈ leafDepths n, a = h) :
    ∀ {lo : Option Int} {es : List (Int × String)} {cs : List BTreeNode},
    WFSeq d h lo es cs hi → ∀ a ∈ leafDepthsSeq cs, a = h + 1 := by
  intro lo es cs w
  refine WFSeq.ind
    (P := fun lo es cs => ∀ a ∈ leafDepthsSeq cs, a = h + 1) ?_ ?_ w
  · intro lo c hc a ha
    rw [leafDepthsSeq_cons, leafDepthsSeq_nil, List.append_nil] at ha
    rcases List.mem_map.mp ha with ⟨b, hb, hba⟩
    rw [← hba, ihnode hc b hb]
  · intro lo e es2 c cs2 _ _ hc hrest hP a ha
    rw [leafDepthsSeq_cons] at ha
    rcases List.mem_append.mp ha with h1 | h1
    · rcases List.mem_map.mp h1 with ⟨b, hb, hba⟩
      rw [← hba, ihnode hc b hb]
    · exact hP a h1

/-- All leaves of a well-formed subtree lie at depth exactly h (invariant 4). -/
theorem wf_leafDepths : ∀ (h : Nat) {d : Nat} {lo hi : Option Int} {n : BTreeNode},
    WFNode d lo hi h n → ∀ a ∈ leafDepths n, a = h := by
  intro h
  induction h with
  | zero =>
    intro d lo hi n w a ha
    cases w with
    | leaf lo hi es h1 h2 hs =>
      rw [leafDepths_leaf] at ha
      simpa using ha
  | succ h ih =>
    intro d lo hi n w a ha
    cases w with
    | internal lo hi _ es cs h1 h2 hseq =>
      rw [leafDepths_internal] at ha
      exact wfseq_leafDepths h (fun w2 => ih w2) hseq a ha

/-- Root version of wf_leafDepths: all leaves at uniform depth h. -/
theorem wfroot_leafDepths {d h : Nat} {r : BTreeNode} (w : WFRoot d h r) :
    ∀ a ∈ leafDepths r, a = h := by
  cases w with
  | leaf es h2 hs =>
    intro a ha
    rw [leafDepths_leaf] at ha
    simpa using ha
  | internal h2 es cs hlen hseq =>
    intro a ha
    rw [leafDepths_internal] at ha
    exact wfseq_leafDepths h2 (fun w2 => wf_leafDepths h2 w2) hseq a ha

namespace BTreeNode

/-- Number of nodes visited by search: one per level along the search path. -/
def searchVisits : BTreeNode → Int → Nat
  | mk es cs lf, k =>
    if (es[slot es k]?).map Prod.fst = some k then 1
    else if lf then 1
    else if h : slot es k < cs.length then
      1 + searchVisits cs[slot es k] k
    else 1
  termination_by n _ => sizeOf n
  decreasing_by
    have := List.sizeOf_lt_of_mem (cs.getElem_mem h)
    simp only [BTreeNode.sizeOf_mk]
    omega

/-- Number of nodes visited by insertNonFull: one per level along the
insertion path (splitChild works in place on the already-visited child). -/
def insertVisits (d : Nat) : BTreeNode → Int → Nat
  | mk es cs lf, k =>
    if (es[slot es k]?).map Prod.fst = some k then 1
    else if lf then 1
    else if hlt : slot es k < cs.length then
      if (cs[slot es k]).numKeys = maxKeys d then
        if hm : d - 1 < (cs[slot es k]).entries.length then
          if ((cs[slot es k]).entries[d - 1]).1 < k then
            1 + insertVisits d
              (mk ((cs[slot es k]).entries.drop d) ((cs[slot es k]).children.drop d)
                (cs[slot es k]).isLeaf) k
          else if ((cs[slot es k]).entries[d - 1]).1 = k then 1
          else
            1 + insertVisits d
              (mk ((cs[slot es k]).entries.take (d - 1)) ((cs[slot es k]).children.take d)
                (cs[slot es k]).isLeaf) k
        else 1
      else 1 + insertVisits d (cs[slot es k]) k
    else 1
  termination_by n _ => sizeOf n
  decreasing_by
    · have h1 := List.sizeOf_lt_of_mem (cs.getElem_mem hlt)
      have h2 := sizeOf_drop_le (α := Int × String) d ((cs[slot es k]).entries)
      have h3 := sizeOf_drop_le (α := BTreeNode) d ((cs[slot es k]).children)
      have h4 := sizeOf_decompose (cs[slot es k])
      simp only [BTreeNode.sizeOf_mk]
      omega
    · have h1 := List.sizeOf_lt_of_mem (cs.getElem_mem hlt)
      have h2 := sizeOf_take_le (α := Int × String) (d - 1) ((cs[slot es k]).entries)
      have h3 := sizeOf_take_le (α := BTreeNode) d ((cs[slot es k]).children)
      have h4 := sizeOf_decompose (cs[slot es k])
      simp only [BTreeNode.sizeOf_mk]
      omega
    · have h1 := List.sizeOf_lt_of_mem (cs.getElem_mem hlt)
      simp only [BTreeNode.sizeOf_mk]
      omega

mutual

/-- Number of nodes in the subtree: the number of node visits a full
traversal performs. -/
def nodeCount : BTreeNode → Nat
  | mk _ cs _ => 1 + nodeCountSeq cs
  termination_by n => sizeOf n
  decreasing_by
    simp only [BTreeNode.sizeOf_mk]
    omega

def nodeCountSeq : List BTreeNode → Nat
  | [] => 0
  | c :: cs => nodeCount c + nodeCountSeq cs
  termination_by cs => sizeOf cs
  decreasing_by
    · simp only [List.cons.sizeOf_spec]
      omega
    · simp only [List.cons.sizeOf_spec]
      omega

end

theorem nodeCount_mk (es : List (Int × String)) (cs : List BTreeNode) (lf : Bool) :
    nodeCount (mk es cs lf) = 1 + nodeCountSeq cs := by
  rw [nodeCount.eq_def]

theorem nodeCountSeq_nil : nodeCountSeq [] = 0 := by
  rw [nodeCountSeq.eq_def]

theorem nodeCountSeq_cons (c : BTreeNode) (cs : List BTreeNode) :
    nodeCountSeq (c :: cs) = nodeCount c + nodeCountSeq cs := by
  rw [nodeCountSeq.eq_def]

/-- Search visits at most one node per level. -/
theorem searchVisits_le : ∀ (h : Nat) {d : Nat} {lo hi : Option Int} {n : BTreeNode},
    WFNode d lo hi h n → ∀ (k : Int), searchVisits n k ≤ h + 1 := by
  intro h
  induction h with
  | zero =>
    intro d lo hi n w k
    cases w with
    | leaf lo hi es h1 h2 hs =>
      rw [searchVisits.eq_def]
      by_cases hf : (es[slot es k]?).map Prod.fst = some k <;> simp [hf]
  | succ h ih =>
    intro d lo hi n w k
    cases w with
    | internal lo hi _ es cs h1 h2 hseq =>
      rw [searchVisits.eq_def]
      by_cases hf : (es[slot es k]?).map Prod.fst = some k
      · simp [hf]
      · simp only [hf, Bool.false_eq_true, reduceIte]
        by_cases hin : slot es k < cs.length
        · simp only [dif_pos hin]
          rcases wfseq_mem_child hseq cs[slot es k] (cs.getElem_mem hin) with ⟨lo2, hi2, hc⟩
          have := ih hc k
          omega
        · simp [dif_neg hin]

/-- insertNonFull visits at most one node per level. -/
theorem insertVisits_le : ∀ (h : Nat) {d : Nat}, 2 ≤ d →
    ∀ {lo hi : Option Int} {n : BTreeNode},
    WFNode d lo hi h n → ∀ (k : Int), insertVisits d n k ≤ h + 1 := by
  intro h
  induction h with
  | zero =>
    intro d hd lo hi n w k
    cases w with
    | leaf lo hi es h1 h2 hs =>
      rw [insertVisits.eq_def]
      by_cases hf : (es[slot es k]?).map Prod.fst = some k <;> simp [hf]
  | succ h ih =>
    intro d hd lo hi n w k
    cases w with
    | internal lo hi _ es cs h1 h2 hseq =>
      rw [insertVisits.eq_def]
      by_cases hf : (es[slot es k]?).map Prod.fst = some k
      · simp [hf]
      · simp only [hf, Bool.false_eq_true, reduceIte]
        by_cases hin : slot es k < cs.length
        · simp only [dif_pos hin]
          rcases wfseq_mem_child hseq cs[slot es k] (cs.getElem_mem hin) with ⟨lo2, hi2, hc⟩
          by_cases hfull : (cs[slot es k]).numKeys = maxKeys d
          · simp only [if_pos hfull]
            by_cases hm : d - 1 < (cs[slot es k]).entries.length
            · simp only [dif_pos hm]
              have hmed : (cs[slot es k]).entries[d - 1]? =
                  some ((cs[slot es k]).entries[d - 1]) := List.getElem?_eq_getElem hm
              rcases wf_split h hd hc hfull hmed with ⟨WL, WR, _, _, _⟩
              by_cases h3 : ((cs[slot es k]).entries[d - 1]).1 < k
              · simp only [if_pos h3]
                have := ih hd WR k
                omega
              · simp only [if_neg h3]
                by_cases h4 : ((cs[slot es k]).entries[d - 1]).1 = k
                · simp [h4]
                · simp only [h4, Bool.false_eq_true, reduceIte]
                  have := ih hd WL k
                  omega
            · simp [dif_neg hm]
          · simp only [if_neg hfull, Bool.false_eq_true, reduceIte]
            have := ih hd hc k
            omega
        · simp [dif_neg hin]

/-- Root version of searchVisits_le. -/
theorem searchVisits_root {d h : Nat} {r : BTreeNode} (w : WFRoot d h r) (k : Int) :
    searchVisits r k ≤ h + 1 := by
  cases w with
  | leaf es h2 hs =>
    rw [searchVisits.eq_def]
    by_cases hf : (es[slot es k]?).map Prod.fst = some k <;> simp [hf]
  | internal h2 es cs hlen hseq =>
    rw [searchVisits.eq_def]
    by_cases hf : (es[slot es k]?).map Prod.fst = some k
    · simp [hf]
    · simp only [hf, Bool.false_eq_true, reduceIte]
      by_cases hin : slot es k < cs.length
      · simp only [dif_pos hin]
        rcases wfseq_mem_child hseq cs[slot es k] (cs.getElem_mem hin) with ⟨lo2, hi2, hc⟩
        have := searchVisits_le h2 hc k
        omega
      · simp [dif_neg hin]

/-- Root version of insertVisits_le. -/
theorem insertVisits_root {d h : Nat} (hd : 2 ≤ d) {r : BTreeNode} (w : WFRoot d h r)
    (k : Int) : insertVisits d r k ≤ h + 1 := by
  cases w with
  | leaf es h2 hs =>
    rw [insertVisits.eq_def]
    by_cases hf : (es[slot es k]?).map Prod.fst = some k <;> simp [hf]
  | internal h2 es cs hlen hseq =>
    rw [insertVisits.eq_def]
    by_cases hf : (es[slot es k]?).map Prod.fst = some k
    · simp [hf]
    · simp only [hf, Bool.false_eq_true, reduceIte]
      by_cases hin : slot es k < cs.length
      · simp only [dif_pos hin]
        rcases wfseq_mem_child hseq cs[slot es k] (cs.getElem_mem hin) with ⟨lo2, hi2, hc⟩
        by_cases hfull : (cs[slot es k]).numKeys = maxKeys d
        · simp only [if_pos hfull]
          by_cases hm : d - 1 < (cs[slot es k]).entries.length
          · simp only [dif_pos hm]
            have hmed : (cs[slot es k]).entries[d - 1]? =
                some ((cs[slot es k]).entries[d - 1]) := List.getElem?_eq_getElem hm
            rcases wf_split h2 hd hc hfull hmed with ⟨WL, WR, _, _, _⟩
            by_cases h3 : ((cs[slot es k]).entries[d - 1]).1 < k
            · simp only [if_pos h3]
              have := insertVisits_le h2 hd WR k
              omega
            · simp only [if_neg h3]
              by_cases h4 : ((cs[slot es k]).entries[d - 1]).1 = k
              · simp [h4]
              · simp only [h4, Bool.false_eq_true, reduceIte]
                have := insertVisits_le h2 hd WL k
                omega
          · simp [dif_neg hm]
        · simp only [if_neg hfull, Bool.false_eq_true, reduceIte]
          have := insertVisits_le h2 hd hc k
          omega
      · simp [dif_neg hin]

end BTreeNode

/-- Modelled from the spec (sections 4.1 and 5): search "does not mutate tree
structure" and is a "pure function of tree state at call time"; the C++ method
is modelled as an explicit state-passing operation returning the result
together with the (unchanged) tree state. -/
def searchOp (t : BTree) (k : Int) : Option String × BTree := (t.searchValue k, t)

/-- n + 1 successive calls of searchOp with no intervening insertion, each run
on the state left by the previous call. -/
def repeatSearch (t : BTree) (k : Int) : Nat → Option String × BTree
  | 0 => searchOp t k
  | n + 1 => searchOp (repeatSearch t k n).2 k

theorem insert_degree (t : BTree) (k : Int) (v : String) :
    (t.insert k v).degree = t.degree := by
  simp only [BTree.insert]
  split <;> rfl

theorem buildTree_degree (d : Nat) (ops : List (Int × String)) :
    (buildTree d ops).degree = d := by
  have H : ∀ (ops2 : List (Int × String)) (t : BTree),
      (ops2.foldl (fun t e => t.insert e.1 e.2) t).degree = t.degree := by
    intro ops2
    induction ops2 with
    | nil => intro t; rfl
    | cons e ops3 ih =>
      intro t
      rw [List.foldl_cons, ih, insert_degree]
  exact H ops (emptyTree d)

/-! ## The claims -/

/-- C1: for every valid degree d >= 2 and every sequence of insertions through
the public insertion path (root growth + insertNonFull + splitChild), every
node of the resulting tree satisfies invariant 1 (child-count/key-count
relation), invariant 2 (size bounds, waived at the root), invariant 3 (keys
strictly increasing and children's key ranges strictly bounded by the
separators), and invariant 4 (all leaves at the same depth = the height).
Since every prefix of a sequence is itself a sequence, this covers the state
after each insertion. -/
theorem claim_C1 (d : Nat) (hd : 2 ≤ d) (ops : List (Int × String)) :
    goodNode d true (buildTree d ops).root ∧
    (∀ a ∈ leafDepths (buildTree d ops).root, a = BTreeNode.height (buildTree d ops).root) := by
  rcases buildTree_wf d hd ops with ⟨h, ⟨_, wr⟩, _⟩
  rw [buildTree_degree] at wr
  refine ⟨wfroot_to_good wr, ?_⟩
  intro a ha
  rw [wfroot_height wr]
  exact wfroot_leafDepths wr a ha

theorem claim_C1_witness :
    2 ≤ 2 ∧
    (goodNode 2 true (buildTree 2 [(1, "a"), (2, "b")]).root ∧
    (∀ a ∈ leafDepths (buildTree 2 [(1, "a"), (2, "b")]).root,
      a = BTreeNode.height (buildTree 2 [(1, "a"), (2, "b")]).root)) :=
  ⟨by decide, claim_C1 2 (by decide) [(1, "a"), (2, "b")]⟩

/-- C2: for every tree built by insertions of distinct keys, search returns
the associated value for every inserted key and NotFound (none) for every key
never inserted. -/
theorem claim_C2 (d : Nat) (hd : 2 ≤ d) (ops : List (Int × String))
    (hnd : (ops.map Prod.fst).Nodup) :
    (∀ e ∈ ops, (buildTree d ops).searchValue e.1 = some e.2) ∧
    (∀ key : Int, key ∉ ops.map Prod.fst → (buildTree d ops).searchValue key = none) := by
  rcases buildTree_wf d hd ops with ⟨h, ⟨_, wr⟩, htrav⟩
  rw [buildTree_degree] at wr
  have hroot : (buildTree d ops).root.traverse = applyOps ops := htrav
  constructor
  · intro e he
    show BTreeNode.searchVal (buildTree d ops).root e.1 = some e.2
    rw [searchVal_root h wr, hroot]
    exact lookup_applyOps_mem ops e he hnd
  · intro key hk
    show BTreeNode.searchVal (buildTree d ops).root key = none
    rw [searchVal_root h wr, hroot]
    exact lookup_applyOps_not_mem ops key hk

theorem claim_C2_witness :
    2 ≤ 2 ∧ (([(1, "a"), (2, "b")] : List (Int × String)).map Prod.fst).Nodup ∧
    ((∀ e ∈ ([(1, "a"), (2, "b")] : List (Int × String)),
      (buildTree 2 [(1, "a"), (2, "b")]).searchValue e.1 = some e.2) ∧
    (∀ key : Int, key ∉ ([(1, "a"), (2, "b")] : List (Int × String)).map Prod.fst →
      (buildTree 2 [(1, "a"), (2, "b")]).searchValue key = none)) :=
  ⟨by decide, by decide, claim_C2 2 (by decide) [(1, "a"), (2, "b")] (by decide)⟩

/-- C5: for every tree built by any sequence of insertions, traverse yields
entries with strictly increasing keys, and the set of yielded keys equals the
set of inserted keys (duplicate insertions overwrite, leaving the key in the
set). -/
theorem claim_C5 (d : Nat) (hd : 2 ≤ d) (ops : List (Int × String)) :
    (((buildTree d ops).traverse.map Prod.fst).Chain' (· < ·)) ∧
    (∀ key : Int, key ∈ (buildTree d ops).traverse.map Prod.fst ↔
      key ∈ ops.map Prod.fst) := by
  rcases buildTree_wf d hd ops with ⟨h, _, htrav⟩
  rw [htrav]
  exact ⟨applyOps_chain ops, fun key => applyOps_mem ops key⟩

theorem claim_C5_witness :
    2 ≤ 2 ∧
    ((((buildTree 2 [(3, "a"), (1, "b"), (3, "c")]).traverse.map Prod.fst).Chain' (· < ·)) ∧
    (∀ key : Int, key ∈ (buildTree 2 [(3, "a"), (1, "b"), (3, "c")]).traverse.map Prod.fst ↔
      key ∈ ([(3, "a"), (1, "b"), (3, "c")] : List (Int × String)).map Prod.fst)) :=
  ⟨by decide, claim_C5 2 (by decide) [(3, "a"), (1, "b"), (3, "c")]⟩

/-- C6: tree construction (and the node constructor) fails with
InvalidConfiguration for every degree below 2 — in particular createTree 1 —
and succeeds with an empty node (numKeys = 0) for every degree at least 2. -/
theorem claim_C6 :
    (∀ d : Nat, d < 2 → createTree d = Except.error BTreeError.InvalidConfiguration) ∧
    createTree 1 = Except.error BTreeError.InvalidConfiguration ∧
    (∀ d : Nat, 2 ≤ d →
      createTree d = Except.ok ⟨d, BTreeNode.mk [] [] true⟩ ∧
      (BTreeNode.mk [] [] true).numKeys = 0) ∧
    (∀ (d : Nat) (lf : Bool), d < 2 → mkNode d lf = Except.error BTreeError.InvalidConfiguration) ∧
    (∀ (d : Nat) (lf : Bool), 2 ≤ d → mkNode d lf = Except.ok (BTreeNode.mk [] [] lf)) := by
  refine ⟨?_, ?_, ?_, ?_, ?_⟩
  · intro d hdlt
    simp [createTree, mkNode, hdlt]
  · simp [createTree, mkNode]
  · intro d hd
    have : ¬ d < 2 := by omega
    exact ⟨by simp [createTree, mkNode, this], rfl⟩
  · intro d lf hdlt
    simp [mkNode, hdlt]
  · intro d lf hd
    have : ¬ d < 2 := by omega
    simp [mkNode, this]

theorem claim_C6_witness :
    createTree 1 = Except.error BTreeError.InvalidConfiguration ∧
    (1 : Nat) < 2 ∧ createTree 2 = Except.ok ⟨2, BTreeNode.mk [] [] true⟩ ∧
    (2 : Nat) ≤ 2 :=
  ⟨claim_C6.2.1, by decide, (claim_C6.2.2.1 2 (by decide)).1, by decide⟩

/-- C7: node-level search: the routing index is the first key >= target
(every earlier key is < target, and the key at the index, if any, is >=
target); on an exact match at that index search returns (this node, index);
a leaf miss returns not-found; an internal miss recurses into children at
that index. -/
theorem claim_C7 (es : List (Int × String)) (cs : List BTreeNode) (k : Int) :
    (∀ j, j < BTreeNode.slot es k → ∃ e, es[j]? = some e ∧ e.1 < k) ∧
    (∀ e, es[BTreeNode.slot es k]? = some e → k ≤ e.1) ∧
    (∀ lf, (es[BTreeNode.slot es k]?).map Prod.fst = some k →
      BTreeNode.search (BTreeNode.mk es cs lf) k =
        some (BTreeNode.mk es cs lf, BTreeNode.slot es k)) ∧
    (¬ (es[BTreeNode.slot es k]?).map Prod.fst = some k →
      BTreeNode.search (BTreeNode.mk es cs true) k = none) ∧
    (¬ (es[BTreeNode.slot es k]?).map Prod.fst = some k →
      ∀ h : BTreeNode.slot es k < cs.length,
        BTreeNode.search (BTreeNode.mk es cs false) k =
          BTreeNode.search cs[BTreeNode.slot es k] k) := by
  refine ⟨slot_lt_of_getElem es k, ?_, ?_, ?_, ?_⟩
  · intro e he
    have := slot_getElem_ge es k e he
    omega
  · intro lf hf
    cases lf with
    | true => rw [search_leaf, if_pos hf]
    | false => rw [search_internal, if_pos hf]
  · intro hf
    rw [search_leaf, if_neg hf]
  · intro hf hin
    rw [search_internal, if_neg hf, dif_pos hin]

theorem claim_C7_witness :
    (¬ ((([(5, "a")] : List (Int × String)))[BTreeNode.slot [(5, "a")] (3 : Int)]?).map
      Prod.fst = some (3 : Int)) ∧
    BTreeNode.search (BTreeNode.mk [(5, "a")] [] true) 3 = none := by
  have h := (claim_C7 [(5, "a")] [] 3).2.2.2.1
  have hc : ¬ ((([(5, "a")] : List (Int × String)))[BTreeNode.slot [(5, "a")] (3 : Int)]?).map
      Prod.fst = some (3 : Int) := by decide
  exact ⟨hc, h hc⟩

/-- C8: search is a pure function of the tree state: any number of repeated
calls with no intervening insertion returns the identical result each time
and leaves the entire tree state unchanged. -/
theorem claim_C8 (t : BTree) (k : Int) (n : Nat) :
    repeatSearch t k n = (t.searchValue k, t) := by
  induction n with
  | zero => rfl
  | succ n ih => rw [repeatSearch, ih]; rfl

/-- C3: splitting a full child children[i] (holding maxKeys = 2*degree - 1
keys) of a non-full parent: the retained child keeps entries 0..mid-1 and
children 0..mid, the new sibling (same isLeaf flag) receives entries
mid+1..maxKeys-1 and children mid+1..maxChildren-1, both halves hold exactly
degree - 1 keys, the median (index mid = degree - 1) is inserted into the
parent's keys at position i with the sibling at child position i + 1, and the
median strictly separates the two halves. -/
theorem claim_C3 (d : Nat) (hd : 2 ≤ d) (es : List (Int × String)) (cs : List BTreeNode)
    (i : Nat) (y : BTreeNode)
    (hlen : cs.length = es.length + 1)
    (hnf : es.length < maxKeys d)
    (hy : cs[i]? = some y)
    (hfull : y.numKeys = maxKeys d)
    (hsort : (y.entries.map Prod.fst).Chain' (· < ·)) :
    ∃ med, y.entries[d - 1]? = some med ∧
      splitChild d (BTreeNode.mk es cs false) i =
        BTreeNode.mk (es.insertIdx i med)
          ((cs.set i (BTreeNode.mk (y.entries.take (d - 1)) (y.children.take d) y.isLeaf)).insertIdx
            (i + 1) (BTreeNode.mk (y.entries.drop d) (y.children.drop d) y.isLeaf)) false ∧
      (BTreeNode.mk (y.entries.take (d - 1)) (y.children.take d) y.isLeaf).numKeys = d - 1 ∧
      (BTreeNode.mk (y.entries.drop d) (y.children.drop d) y.isLeaf).numKeys = d - 1 ∧
      (BTreeNode.mk (y.entries.take (d - 1)) (y.children.take d) y.isLeaf).isLeaf = y.isLeaf ∧
      (BTreeNode.mk (y.entries.drop d) (y.children.drop d) y.isLeaf).isLeaf = y.isLeaf ∧
      (y.children.length = maxChildren d →
        (y.children.take d).length = d ∧ (y.children.drop d).length = d) ∧
      (∀ x ∈ (y.entries.take (d - 1)).map Prod.fst, x < med.1) ∧
      (∀ x ∈ (y.entries.drop d).map Prod.fst, med.1 < x) ∧
      (es.insertIdx i med)[i]? = some med ∧
      ((cs.set i (BTreeNode.mk (y.entries.take (d - 1)) (y.children.take d) y.isLeaf)).insertIdx
        (i + 1) (BTreeNode.mk (y.entries.drop d) (y.children.drop d) y.isLeaf))[i]? =
          some (BTreeNode.mk (y.entries.take (d - 1)) (y.children.take d) y.isLeaf) ∧
      ((cs.set i (BTreeNode.mk (y.entries.take (d - 1)) (y.children.take d) y.isLeaf)).insertIdx
        (i + 1) (BTreeNode.mk (y.entries.drop d) (y.children.drop d) y.isLeaf))[i + 1]? =
          some (BTreeNode.mk (y.entries.drop d) (y.children.drop d) y.isLeaf) := by
  have hfull2 : y.entries.length = 2 * d - 1 := by
    simpa [BTreeNode.numKeys, maxKeys] using hfull
  have hm : d - 1 < y.entries.length := by omega
  have hd1 : d - 1 + 1 = d := by omega
  have hilt : i < cs.length := by
    by_contra hcon
    rw [List.getElem?_eq_none (by omega)] at hy
    cases hy
  have hcy : cs[i] = y := by
    rw [List.getElem?_eq_getElem hilt] at hy
    injection hy
  have hile : i ≤ es.length := by omega
  have hsin : sortedIn none none (y.entries.map Prod.fst) :=
    ⟨hsort, fun x _ => ⟨trivial, trivial⟩⟩
  have hmk : d - 1 < (y.entries.map Prod.fst).length := by simpa using hm
  rcases sortedIn_split none none (y.entries.map Prod.fst) (d - 1) hsin hmk with ⟨SL, SR, _, _⟩
  have hkey : (y.entries.map Prod.fst)[d - 1] = (y.entries[d - 1]).1 :=
    List.getElem_map Prod.fst
  refine ⟨y.entries[d - 1], List.getElem?_eq_getElem hm, ?_, ?_, ?_, rfl, rfl, ?_,
    ?_, ?_, ?_, ?_, ?_⟩
  · rw [splitChild.eq_def]
    simp only [BTreeNode.entries_mk, BTreeNode.children_mk, dif_pos hilt, hcy, dif_pos hm]
  · simp only [BTreeNode.numKeys, BTreeNode.entries_mk, List.length_take]
    omega
  · simp only [BTreeNode.numKeys, BTreeNode.entries_mk, List.length_drop]
    omega
  · intro hYc
    simp only [maxChildren] at hYc
    constructor
    · simp only [List.length_take]
      omega
    · simp only [List.length_drop]
      omega
  · intro x hx
    rw [List.map_take] at hx
    rw [← hkey]
    exact (SL.2 x hx).2
  · intro x hx
    rw [List.map_drop] at hx
    rw [← hd1] at hx
    rw [← hkey]
    exact (SR.2 x hx).1
  · have hlin : i < (es.insertIdx i (y.entries[d - 1])).length := by
      rw [List.length_insertIdx i es hile]
      omega
    rw [List.getElem?_eq_getElem hlin, List.getElem_insertIdx_self es _ i hile]
  · have hset : i < (cs.set i
        (BTreeNode.mk (y.entries.take (d - 1)) (y.children.take d) y.isLeaf)).length := by
      simpa using hilt
    have hfin : i < ((cs.set i
        (BTreeNode.mk (y.entries.take (d - 1)) (y.children.take d) y.isLeaf)).insertIdx
        (i + 1) (BTreeNode.mk (y.entries.drop d) (y.children.drop d) y.isLeaf)).length := by
      rw [List.length_insertIdx (i + 1) _ (by simpa using hilt)]
      omega
    rw [List.getElem?_eq_getElem hfin,
      List.getElem_insertIdx_of_lt _ _ _ _ (Nat.lt_succ_self i) hset,
      List.getElem_set_eq hset]
  · have hle2 : i + 1 ≤ (cs.set i
        (BTreeNode.mk (y.entries.take (d - 1)) (y.children.take d) y.isLeaf)).length := by
      simpa using hilt
    have hfin : i + 1 < ((cs.set i
        (BTreeNode.mk (y.entries.take (d - 1)) (y.children.take d) y.isLeaf)).insertIdx
        (i + 1) (BTreeNode.mk (y.entries.drop d) (y.children.drop d) y.isLeaf)).length := by
      rw [List.length_insertIdx (i + 1) _ hle2]
      omega
    rw [List.getElem?_eq_getElem hfin, List.getElem_insertIdx_self _ _ (i + 1) hle2]

/-- C4: the tree height grows by exactly one iff the root was full at the
start of the insertion, and immediately after the triggering root split the
new root holds exactly one key (the promoted median) with the truncated old
root and its new sibling as its only two children. -/
theorem claim_C4 {t : BTree} {h : Nat} (w : t.WF h) (k : Int) (v : String) :
    ((t.insert k v).root.height = t.root.height + 1 ↔
      t.root.numKeys = maxKeys t.degree) ∧
    (t.root.numKeys = maxKeys t.degree →
      (splitChild t.degree (BTreeNode.mk [] [t.root] false) 0).numKeys = 1 ∧
      ∃ med, t.root.entries[t.degree - 1]? = some med ∧
        splitChild t.degree (BTreeNode.mk [] [t.root] false) 0 =
          BTreeNode.mk [med]
            [BTreeNode.mk (t.root.entries.take (t.degree - 1)) (t.root.children.take t.degree)
              t.root.isLeaf,
             BTreeNode.mk (t.root.entries.drop t.degree) (t.root.children.drop t.degree)
              t.root.isLeaf] false) := by
  rcases tree_insert_wf (k := k) (v := v) w with ⟨W2, _⟩
  rcases w with ⟨hd, wr⟩
  have hh : t.root.height = h := wfroot_height wr
  rcases W2 with ⟨_, wr2⟩
  rw [insert_degree] at wr2
  have hh2 := wfroot_height wr2
  constructor
  · constructor
    · intro hinc
      by_contra hfull
      rw [if_neg hfull] at hh2
      rw [hh2, hh] at hinc
      omega
    · intro hfull
      rw [if_pos hfull] at hh2
      rw [hh2, hh]
  · intro hfull
    have hm : t.degree - 1 < t.root.entries.length := by
      have h5 : t.root.entries.length = 2 * t.degree - 1 := by
        simpa [BTreeNode.numKeys, maxKeys] using hfull
      omega
    have hmed := List.getElem?_eq_getElem hm
    rcases grow_root_wf h hd wr hfull with ⟨_, hnum, _⟩
    exact ⟨hnum, t.root.entries[t.degree - 1], hmed, splitChild_root hmed⟩

/-- A concrete well-formed tree (degree 2, one root entry, two leaf children)
used as an input witness for several claims. -/
def t9 : BTree :=
  ⟨2, BTreeNode.mk [((10 : Int), "a")]
    [BTreeNode.mk [((5 : Int), "c")] [] true, BTreeNode.mk [((20 : Int), "b")] [] true] false⟩

theorem t9_wf : t9.WF 1 := by
  refine ⟨by decide, ?_⟩
  refine WFRoot.internal 0 _ _ (by decide) ?_
  refine WFSeq.cons 0 none none ((10 : Int), "a") []
    (BTreeNode.mk [((5 : Int), "c")] [] true) [BTreeNode.mk [((20 : Int), "b")] [] true]
    trivial trivial ?_ ?_
  · exact WFNode.leaf none (some 10) [((5 : Int), "c")] (by decide) (by decide)
      ⟨by simp, by decide⟩
  · refine WFSeq.last 0 (some 10) none _ ?_
    exact WFNode.leaf (some 10) none [((20 : Int), "b")] (by decide) (by decide)
      ⟨by simp, by decide⟩

/-- C9 as stated is false for traverse: on the well-formed tree t9 the full
traversal visits every node — 3 nodes — which exceeds the height-bounded
budget of height + 1 = 2 node visits that search and insertion obey. -/
theorem claim_C9_counterexample :
    t9.WF 1 ∧ nodeCount t9.root = 3 ∧ BTreeNode.height t9.root = 1 ∧
    ¬ (nodeCount t9.root ≤ BTreeNode.height t9.root + 1) := by
  have h1 : nodeCount t9.root = 3 := by
    simp [t9, nodeCount_mk, nodeCountSeq_cons, nodeCountSeq_nil]
  have h2 : BTreeNode.height t9.root = 1 := by
    simp [t9, height_cons, height_nil]
  refine ⟨t9_wf, h1, h2, ?_⟩
  rw [h1, h2]
  omega

/-- C9 amended: on every tree satisfying the invariants, search and insertion
terminate visiting at most height + 1 nodes (one per level); traverse also
terminates (it is a total function) but visits every node of the tree, a
number not bounded by the height. -/
theorem claim_C9_amended {t : BTree} {h : Nat} (w : t.WF h) (k : Int) :
    BTreeNode.searchVisits t.root k ≤ BTreeNode.height t.root + 1 ∧
    BTreeNode.insertVisits t.degree t.root k ≤ BTreeNode.height t.root + 1 := by
  rcases w with ⟨hd, wr⟩
  rw [wfroot_height wr]
  exact ⟨searchVisits_root wr k, insertVisits_root hd wr k⟩

theorem claim_C9_amended_witness :
    t9.WF 1 ∧
    (BTreeNode.searchVisits t9.root 7 ≤ BTreeNode.height t9.root + 1 ∧
    BTreeNode.insertVisits t9.degree t9.root 7 ≤ BTreeNode.height t9.root + 1) :=
  ⟨t9_wf, claim_C9_amended t9_wf 7⟩

/-- C10: at the declared interface BTreeNode* search(int), a miss is reported
solely by the null pointer: the result is either a pointer to a node whose
keys contain the target, or null exactly when the key is nowhere in the
tree; no index and no value accompany the result. -/
theorem claim_C10 {t : BTree} {h : Nat} (w : t.WF h) (k : Int) :
    (∀ m, BTreeNode.searchPtr t.root k = some m → k ∈ m.keys) ∧
    (BTreeNode.searchPtr t.root k = none ↔ k ∉ t.traverse.map Prod.fst) := by
  rcases w with ⟨hd, wr⟩
  have hval : BTreeNode.searchVal t.root k = lookupSorted k t.root.traverse :=
    searchVal_root h wr k
  constructor
  · intro m hm
    rcases hs : t.root.search k with _ | p
    · rw [BTreeNode.searchPtr, hs] at hm
      cases hm
    · rcases p with ⟨m2, i⟩
      rw [BTreeNode.searchPtr, hs] at hm
      have hm2 : m2 = m := by simpa using hm
      subst hm2
      have hkey := search_found_key t.root k m2 i hs
      rcases he : m2.entries[i]? with _ | e
      · rw [he] at hkey
        cases hkey
      · rw [he] at hkey
        have he1 : e.1 = k := by simpa using hkey
        have hmem : e ∈ m2.entries := List.getElem?_mem he
        rw [BTreeNode.keys, ← he1]
        exact List.mem_map_of_mem Prod.fst hmem
  · constructor
    · intro hnone hkmem
      have hsnone : t.root.search k = none := by
        rcases hs : t.root.search k with _ | p
        · rfl
        · rcases p with ⟨m2, i⟩
          rw [BTreeNode.searchPtr, hs] at hnone
          cases hnone
      have hv : BTreeNode.searchVal t.root k = none := by
        simp [BTreeNode.searchVal, hsnone]
      rw [hval] at hv
      have hall := (lookupSorted_none_iff k t.root.traverse).mp hv
      rcases List.mem_map.mp hkmem with ⟨e, he, he1⟩
      exact hall e he he1
    · intro hnotmem
      rcases hs : t.root.search k with _ | p
      · rw [BTreeNode.searchPtr, hs]
        rfl
      · exfalso
        rcases p with ⟨m2, i⟩
        have hkey := search_found_key t.root k m2 i hs
        rcases he : m2.entries[i]? with _ | e
        · rw [he] at hkey
          cases hkey
        · have hv : BTreeNode.searchVal t.root k = some e.2 := by
            simp [BTreeNode.searchVal, hs, he]
          rw [hval] at hv
          have : lookupSorted k t.root.traverse ≠ none := by
            rw [hv]
            simp
          have hex : ¬ ∀ x ∈ t.root.traverse, x.1 ≠ k := by
            intro hall
            exact this (lookupSorted_eq_none k _ hall)
          push_neg at hex
          rcases hex with ⟨x, hx, hx1⟩
          exact hnotmem (List.mem_map.mpr ⟨x, hx, hx1⟩)

theorem claim_C10_witness :
    t9.WF 1 ∧
    ((∀ m, BTreeNode.searchPtr t9.root 10 = some m → (10 : Int) ∈ m.keys) ∧
    (BTreeNode.searchPtr t9.root 10 = none ↔ (10 : Int) ∉ t9.traverse.map Prod.fst)) :=
  ⟨t9_wf, claim_C10 t9_wf 10⟩


/-- Concrete full child, sibling, parent fields used as the C3 witness input. -/
def c3y : BTreeNode := BTreeNode.mk [((1 : Int), "a"), ((2 : Int), "b"), ((3 : Int), "c")] [] true

def c3z : BTreeNode := BTreeNode.mk [((200 : Int), "z")] [] true

def c3es : List (Int × String) := [((100 : Int), "p")]

def c3cs : List BTreeNode := [c3y, c3z]

theorem claim_C3_witness :
    (2 : Nat) ≤ 2 ∧ c3cs.length = c3es.length + 1 ∧ c3es.length < maxKeys 2 ∧
    c3cs[0]? = some c3y ∧ c3y.numKeys = maxKeys 2 ∧
    ((c3y.entries.map Prod.fst).Chain' (· < ·)) ∧
    (
    ∃ med, c3y.entries[2 - 1]? = some med ∧
      splitChild 2 (BTreeNode.mk c3es c3cs false) 0 =
        BTreeNode.mk (c3es.insertIdx 0 med)
          ((c3cs.set 0 (BTreeNode.mk (c3y.entries.take (2 - 1)) (c3y.children.take 2) c3y.isLeaf)).insertIdx
            (0 + 1) (BTreeNode.mk (c3y.entries.drop 2) (c3y.children.drop 2) c3y.isLeaf)) false ∧
      (BTreeNode.mk (c3y.entries.take (2 - 1)) (c3y.children.take 2) c3y.isLeaf).numKeys = 2 - 1 ∧
      (BTreeNode.mk (c3y.entries.drop 2) (c3y.children.drop 2) c3y.isLeaf).numKeys = 2 - 1 ∧
      (BTreeNode.mk (c3y.entries.take (2 - 1)) (c3y.children.take 2) c3y.isLeaf).isLeaf = c3y.isLeaf ∧
      (BTreeNode.mk (c3y.entries.drop 2) (c3y.children.drop 2) c3y.isLeaf).isLeaf = c3y.isLeaf ∧
      (c3y.children.length = maxChildren 2 →
        (c3y.children.take 2).length = 2 ∧ (c3y.children.drop 2).length = 2) ∧
      (∀ x ∈ (c3y.entries.take (2 - 1)).map Prod.fst, x < med.1) ∧
      (∀ x ∈ (c3y.entries.drop 2).map Prod.fst, med.1 < x) ∧
      (c3es.insertIdx 0 med)[0]? = some med ∧
      ((c3cs.set 0 (BTreeNode.mk (c3y.entries.take (2 - 1)) (c3y.children.take 2) c3y.isLeaf)).insertIdx
        (0 + 1) (BTreeNode.mk (c3y.entries.drop 2) (c3y.children.drop 2) c3y.isLeaf))[0]? =
          some (BTreeNode.mk (c3y.entries.take (2 - 1)) (c3y.children.take 2) c3y.isLeaf) ∧
      ((c3cs.set 0 (BTreeNode.mk (c3y.entries.take (2 - 1)) (c3y.children.take 2) c3y.isLeaf)).insertIdx
        (0 + 1) (BTreeNode.mk (c3y.entries.drop 2) (c3y.children.drop 2) c3y.isLeaf))[0 + 1]? =
          some (BTreeNode.mk (c3y.entries.drop 2) (c3y.children.drop 2) c3y.isLeaf)) :=
  ⟨by decide, rfl, by decide, rfl, by decide,
    by norm_num [c3y, BTreeNode.entries_mk, List.chain'_cons],
    claim_C3 2 (by decide) c3es c3cs 0 c3y rfl (by decide) rfl (by decide)
      (by norm_num [c3y, BTreeNode.entries_mk, List.chain'_cons])⟩

theorem claim_C4_witness :
    (emptyTree 2).WF 0 ∧
    ((((emptyTree 2).insert 1 "a").root.height = (emptyTree 2).root.height + 1 ↔
      (emptyTree 2).root.numKeys = maxKeys (emptyTree 2).degree) ∧
    ((emptyTree 2).root.numKeys = maxKeys (emptyTree 2).degree →
      (splitChild (emptyTree 2).degree (BTreeNode.mk [] [(emptyTree 2).root] false) 0).numKeys =
        1 ∧
      ∃ med, (emptyTree 2).root.entries[(emptyTree 2).degree - 1]? = some med ∧
        splitChild (emptyTree 2).degree (BTreeNode.mk [] [(emptyTree 2).root] false) 0 =
          BTreeNode.mk [med]
            [BTreeNode.mk ((emptyTree 2).root.entries.take ((emptyTree 2).degree - 1))
              ((emptyTree 2).root.children.take (emptyTree 2).degree) (emptyTree 2).root.isLeaf,
             BTreeNode.mk ((emptyTree 2).root.entries.drop (emptyTree 2).degree)
              ((emptyTree 2).root.children.drop (emptyTree 2).degree) (emptyTree 2).root.isLeaf]
            false)) :=
  ⟨emptyTree_wf 2 (by decide), claim_C4 (emptyTree_wf 2 (by decide)) 1 "a"⟩
